import Mathlib

/-!
Verification of the Procem real-time-hub (python_poc) against its
natural-language specification.  The definitions below are a shallow
embedding of the Python sources:

  * `adapters/common_utils.py`  (UDP sender with acknowledgement and spill,
    packet validator),
  * `utils/datastorage.py`      (bounded per-id latest-value store),
  * `procem_rtl.py`             (router: UDP handler, CSV day-log worker,
    IoT-Ticket uploader boundary and cycling, main start-up sequence),
  * `iotticket_utils.py`        (the IoT-Ticket client constructor).

Machine integers are modelled as `Int`/`Nat` (Python integers are unbounded),
Python `None`-able values and fallible lookups as `Option`, Python dicts as
update functions or association lists, and the nondeterministic environment
(socket receives, wall-clock dates, random draws) as explicit oracle
arguments.
-/

namespace Procem

/-! ## Reliable UDP sender (`adapters/common_utils.py`, lines 41-51 and 160-199)

`sendUDPmsg` transmits a datagram and, when confirmation is in use, waits for
the literal acknowledgement `"OK"`; on a missing acknowledgement it resends up
to `MAX_UDP_RESENDS` times and finally appends the datagram to the write-side
backup (spill) file.  The environment is an oracle `ackOf : Nat → Bool`
telling whether the receive following the n-th transmission (1-indexed)
yields exactly the confirmation message. -/

/-- `MAX_UDP_RESENDS` from `adapters/common_utils.py` line 43. -/
def MAX_UDP_RESENDS : Nat := 4

/-- `USE_FILE_BACKUP` from `adapters/common_utils.py` line 49. -/
def USE_FILE_BACKUP : Bool := true

/-- Observable outcome of one `sendUDPmsg` call: how many times the datagram
went out on the socket and whether it was appended to the spill file. -/
structure SendResult where
  transmissions : Nat
  spilled : Bool
deriving DecidableEq, Repr

/-- The resend `while` loop of `sendUDPmsg` (`common_utils.py` lines 186-190).
State: `conf` is the last confirmation comparison (`confirmation ==
CONFIRMATION_MESSAGE`), `resend_try` the loop counter, `sent` the number of
transmissions so far.  Each iteration resends and receives again. -/
def sendResendLoop (ackOf : Nat → Bool) (conf : Bool) (resend_try : Nat) (sent : Nat) :
    Bool × Nat :=
  if conf = false ∧ resend_try ≤ MAX_UDP_RESENDS then
    sendResendLoop ackOf (ackOf (sent + 1)) (resend_try + 1) (sent + 1)
  else
    (conf, sent)
termination_by MAX_UDP_RESENDS + 1 - resend_try
decreasing_by
  simp_wf
  omega

/-- `sendUDPmsg` from `adapters/common_utils.py` lines 173-199: first
transmission, then (when `use_confirmation`) the confirmation/resend loop;
after the loop, if the confirmation never arrived the message is written to
the backup file (`USE_FILE_BACKUP` is `true` in the source). -/
def sendUDPmsg (ackOf : Nat → Bool) (use_confirmation : Bool) : SendResult :=
  if use_confirmation then
    let conf := ackOf 1
    let r := sendResendLoop ackOf conf 1 1
    { transmissions := r.2, spilled := if r.1 = false then USE_FILE_BACKUP else false }
  else
    { transmissions := 1, spilled := false }

/-! ## Uploader retry sleep (`procem_rtl.py` line 488)

Before retry number `try_number ≥ 2` the writer thread executes
`time.sleep(try_number * IOTTICKET_MINIMUM_DELAY * (random.uniform(1.0, 2.0)
+ extra_wait))`.  The random draw and the configured delay are modelled as
rational arguments. -/

/-- The duration passed to `time.sleep` at `procem_rtl.py` line 488; `u` is
the value drawn by `random.uniform(1.0, 2.0)`. -/
def retrySleepDuration (try_number : Nat) (minimum_delay u extra_wait : ℚ) : ℚ :=
  (try_number : ℚ) * minimum_delay * (u + extra_wait)

/-- Modelled from the spec: the sleep formula as the specification states it,
`try × min_delay × uniform(1..2) + extra_wait_seconds`. -/
def specRetrySleepDuration (try_number : Nat) (minimum_delay u extra_wait : ℚ) : ℚ :=
  (try_number : ℚ) * minimum_delay * u + extra_wait

/-! ## Router UDP handler (`procem_rtl.py` lines 107-127)

`ReceivedUDPHandler.handle` routes a datagram towards the query queue (when
it starts with the literal `get_value:`) or the main queue, using
`queue.Queue.put(item)` in both cases.  `queue.Queue.put` with the default
arguments (`block=True`, `timeout=None`) enqueues immediately when a slot is
free and otherwise waits, without any timeout, until space appears; it never
drops the item.  A `maxsize <= 0` Python queue is unbounded. -/

/-- `GET_VALUE_MESSAGE` from `adapters/common_utils.py` line 55. -/
def GET_VALUE_MESSAGE : String := "get_value:"

/-- `GET_VALUE_LENGTH` from `adapters/common_utils.py` line 56. -/
def GET_VALUE_LENGTH : Nat := 10

/-- Outcome of one queue push as observed by the UDP listener thread. -/
inductive PutOutcome
  | enqueued
  | droppedAfterTimeout
  | blockedUntilSpace
deriving DecidableEq, Repr

/-- Semantics of Python `queue.Queue.put(item)` with default arguments:
immediate success when the queue has room (or is unbounded, `maxsize <= 0`),
otherwise an unbounded wait for space. -/
def pythonBlockingPut (size : Nat) (maxsize : Int) : PutOutcome :=
  if maxsize ≤ 0 then PutOutcome.enqueued
  else if (size : Int) < maxsize then PutOutcome.enqueued
  else PutOutcome.blockedUntilSpace

/-- The two queues touched by `ReceivedUDPHandler.handle`, with their current
number of items and their configured `maxsize`. -/
structure RouterQueues where
  mainSize : Nat
  mainMaxsize : Int
  querySize : Nat
  queryMaxsize : Int
deriving DecidableEq, Repr

/-- `ReceivedUDPHandler.handle` from `procem_rtl.py` lines 109-127, reduced to
its queue interaction: a `get_value:` datagram is pushed to the value-query
queue, anything else to the main queue. -/
def receivedUDPHandler_handle (q : RouterQueues) (data : String) : PutOutcome :=
  if data.take GET_VALUE_LENGTH = GET_VALUE_MESSAGE then
    pythonBlockingPut q.querySize q.queryMaxsize
  else
    pythonBlockingPut q.mainSize q.mainMaxsize

/-! ## Router start-up sequence (`procem_rtl.py` lines 708-824 and
`iotticket_utils.py` lines 43-52)

After the configuration sanity check (line 759) the main sequence creates the
worker threads, constructs `SimpleIoTTicketClient` with five arguments
(line 790) and only then starts the UDP server (lines 799-810).
`SimpleIoTTicketClient.__init__` (line 50 of `iotticket_utils.py`) declares
exactly the positional parameters `base_url, username, password`, with no
defaults and no varargs, so CPython raises `TypeError` when the call supplies
a different number of arguments. -/

/-- Number of arguments accepted by `SimpleIoTTicketClient.__init__` besides
`self` (`iotticket_utils.py` line 50). -/
def simpleIoTTicketClient_init_arity : Nat := 3

/-- Number of arguments passed at the construction site `procem_rtl.py` line
790: `PROCEM_BASEURL, PROCEM_USERNAME, PROCEM_PASSWORD, IOTTICKET_VERSION,
IOTTICKET_DEVICES`. -/
def mainClientCallArity : Nat := 5

/-- CPython call semantics for a `def` with `arity` positional parameters,
no default values and no varargs: the call binds successfully exactly when
the number of supplied arguments equals `arity`. -/
def pythonCallBinds (arity args : Nat) : Bool :=
  args == arity

/-- The configuration fields inspected by the start-up sanity check
(`procem_rtl.py` line 759). -/
structure RouterConfig where
  deviceid : String
  username : String
  password : String
  baseurl : String
deriving DecidableEq, Repr

/-- The sanity check at `procem_rtl.py` line 759: start-up continues only if
none of the four credential strings is empty. -/
def configCheckPasses (c : RouterConfig) : Bool :=
  !(c.deviceid == "" || c.username == "" || c.password == "" || c.baseurl == "")

/-- How far the `__main__` sequence of `procem_rtl.py` gets. -/
inductive StartupOutcome
  | configError
  | typeErrorAtClientInit
  | udpServerStarted
deriving DecidableEq, Repr

/-- The `__main__` sequence of `procem_rtl.py` reduced to its three
decision points in source order: the sanity check (line 759), the
`SimpleIoTTicketClient` construction (line 790), and the UDP-server start
(lines 799-810).  A failed call binding raises `TypeError` and aborts the
sequence before the server start. -/
def routerStartup (c : RouterConfig) : StartupOutcome :=
  if configCheckPasses c = false then StartupOutcome.configError
  else if pythonCallBinds simpleIoTTicketClient_init_arity mainClientCallArity = false then
    StartupOutcome.typeErrorAtClientInit
  else StartupOutcome.udpServerStarted

/-! ## Lemmas about the resend loop -/

theorem sendResendLoop_sent_le (ackOf : Nat → Bool) :
    ∀ d conf t s, MAX_UDP_RESENDS + 1 - t = d →
      (sendResendLoop ackOf conf t s).2 ≤ s + d := by
  intro d
  induction d with
  | zero =>
    intro conf t s hd
    rw [sendResendLoop]
    have hc : ¬(conf = false ∧ t ≤ MAX_UDP_RESENDS) := by
      rintro ⟨-, ht⟩
      simp only [MAX_UDP_RESENDS] at ht hd
      omega
    rw [if_neg hc]
    simp
  | succ d ih =>
    intro conf t s hd
    rw [sendResendLoop]
    by_cases hc : conf = false ∧ t ≤ MAX_UDP_RESENDS
    · rw [if_pos hc]
      have h2 := ih (ackOf (s + 1)) (t + 1) (s + 1) (by omega)
      omega
    · rw [if_neg hc]
      omega

theorem sendResendLoop_success (ackOf : Nat → Bool) (K : Nat)
    (hK : K ≤ MAX_UDP_RESENDS)
    (hmiss : ∀ n, 1 ≤ n → n ≤ K → ackOf n = false)
    (hhit : ackOf (K + 1) = true) :
    ∀ d t, K + 1 - t = d → 1 ≤ t → t ≤ K + 1 →
      sendResendLoop ackOf (ackOf t) t t = (true, K + 1) := by
  intro d
  induction d with
  | zero =>
    intro t hd h1 h2
    have ht : t = K + 1 := by omega
    subst ht
    rw [sendResendLoop]
    have hc : ¬(ackOf (K + 1) = false ∧ K + 1 ≤ MAX_UDP_RESENDS) := by
      rintro ⟨hfalse, -⟩
      rw [hhit] at hfalse
      exact Bool.true_eq_false.mp hfalse
    rw [if_neg hc, hhit]
  | succ d ih =>
    intro t hd h1 h2
    have htK : t ≤ K := by omega
    have hmt : ackOf t = false := hmiss t h1 htK
    rw [sendResendLoop]
    rw [if_pos ⟨hmt, by have hK2 := hK; simp only [MAX_UDP_RESENDS] at hK2 ⊢; omega⟩]
    exact ih (t + 1) (by omega) (by omega) (by omega)

theorem sendResendLoop_allMiss (ackOf : Nat → Bool)
    (hmiss : ∀ n, 1 ≤ n → n ≤ MAX_UDP_RESENDS + 1 → ackOf n = false) :
    ∀ d t, MAX_UDP_RESENDS + 1 - t = d → 1 ≤ t → t ≤ MAX_UDP_RESENDS + 1 →
      sendResendLoop ackOf (ackOf t) t t = (false, MAX_UDP_RESENDS + 1) := by
  intro d
  induction d with
  | zero =>
    intro t hd h1 h2
    have ht : t = MAX_UDP_RESENDS + 1 := by omega
    subst ht
    rw [sendResendLoop]
    have hc : ¬(ackOf (MAX_UDP_RESENDS + 1) = false ∧
        MAX_UDP_RESENDS + 1 ≤ MAX_UDP_RESENDS) := by
      rintro ⟨-, habs⟩
      omega
    rw [if_neg hc, hmiss (MAX_UDP_RESENDS + 1) (by omega) (by omega)]
  | succ d ih =>
    intro t hd h1 h2
    have hmt : ackOf t = false := hmiss t h1 (by omega)
    rw [sendResendLoop]
    rw [if_pos ⟨hmt, by simp only [MAX_UDP_RESENDS] at hd ⊢; omega⟩]
    exact ih (t + 1) (by omega) (by omega) (by omega)

/-- C5: with acknowledgements on, the datagram goes out once and is then
resent while no `"OK"` arrives, up to `MAX_UDP_RESENDS = 4` more times (at
most 5 transmissions).  When the acknowledgement of transmission `K+1`
arrives after `K ≤ 4` unacknowledged transmissions, the call returns after
exactly `K+1` transmissions without touching the spill file; only when all
5 transmissions go unacknowledged is the datagram appended to the spill
file. -/
theorem sendUDPmsg_ack_retry_spec (ackOf : Nat → Bool) (K : Nat)
    (hK : K ≤ MAX_UDP_RESENDS)
    (hmiss : ∀ n, 1 ≤ n → n ≤ K → ackOf n = false)
    (hhit : ackOf (K + 1) = true) :
    sendUDPmsg ackOf true = { transmissions := K + 1, spilled := false } ∧
    (∀ g : Nat → Bool, (sendUDPmsg g true).transmissions ≤ 5) ∧
    (∀ g : Nat → Bool, (∀ n, 1 ≤ n → n ≤ 5 → g n = false) →
      sendUDPmsg g true = { transmissions := 5, spilled := true }) := by
  refine ⟨?_, ?_, ?_⟩
  · have h := sendResendLoop_success ackOf K hK hmiss hhit K 1 rfl le_rfl (by omega)
    simp only [sendUDPmsg, if_pos, h]
    rfl
  · intro g
    have h := sendResendLoop_sent_le g (MAX_UDP_RESENDS + 1 - 1) (g 1) 1 1 rfl
    simp only [MAX_UDP_RESENDS] at h
    simp only [sendUDPmsg, if_true]
    omega
  · intro g hg
    have h := sendResendLoop_allMiss g (by intro n h1 h2; exact hg n h1 h2) 4 1 rfl le_rfl
      (by omega)
    simp only [sendUDPmsg, if_pos, h]
    rfl

/-- Witness for `sendUDPmsg_ack_retry_spec` at the oracle that acknowledges
only the third transmission (`K = 2`, the spec's scenario S5). -/
theorem sendUDPmsg_ack_retry_spec_witness :
    sendUDPmsg (fun n => n == 3) true = { transmissions := 3, spilled := false } :=
  (sendUDPmsg_ack_retry_spec (fun n => n == 3) 2 (by decide)
    (by intro n h1 h2; interval_cases n <;> decide) (by decide)).1

/-- C7 counterexample: at retry 2 with `min_delay = 1`, a drawn `u = 1` and
`extra_wait = 2` (the value set after an authorisation-kind failure), the
code sleeps `2 × 1 × (1 + 2) = 6` seconds while the claimed formula gives
`2 × 1 × 1 + 2 = 4` seconds. -/
theorem retrySleep_counterexample :
    retrySleepDuration 2 1 1 2 = 6 ∧ specRetrySleepDuration 2 1 1 2 = 4 ∧
    retrySleepDuration 2 1 1 2 ≠ specRetrySleepDuration 2 1 1 2 := by
  refine ⟨?_, ?_, ?_⟩ <;> norm_num [retrySleepDuration, specRetrySleepDuration]

/-- C7 (amended): the duration slept before retry `k` equals
`k × min_delay × (u + extra_wait)` — the extra wait is scaled inside the
product, not added to it — and in particular, for `u ∈ [1,2]`,
`extra_wait ≥ 0` and a non-negative configured delay, the sleep is at least
`k × min_delay`. -/
theorem retrySleep_amended (k : Nat) (minimum_delay u extra_wait : ℚ)
    (hk : 2 ≤ k) (hu1 : 1 ≤ u) (hu2 : u ≤ 2)
    (he : 0 ≤ extra_wait) (hd : 0 ≤ minimum_delay) :
    retrySleepDuration k minimum_delay u extra_wait
      = (k : ℚ) * minimum_delay * (u + extra_wait) ∧
    (k : ℚ) * minimum_delay ≤ retrySleepDuration k minimum_delay u extra_wait := by
  constructor
  · rfl
  · unfold retrySleepDuration
    have h1 : (1 : ℚ) ≤ u + extra_wait := by linarith
    have hk0 : (0 : ℚ) ≤ (k : ℚ) * minimum_delay := by positivity
    nlinarith

/-- Witness for `retrySleep_amended` at retry 2, `min_delay = 1`, `u = 1`,
`extra_wait = 2`. -/
theorem retrySleep_amended_witness :
    retrySleepDuration 2 1 1 2 = (2 : ℚ) * 1 * (1 + 2) ∧
    (2 : ℚ) * 1 ≤ retrySleepDuration 2 1 1 2 :=
  retrySleep_amended 2 1 1 2 (by norm_num) (by norm_num) (by norm_num)
    (by norm_num) (by norm_num)

/-- C6 counterexample: with the main queue full (1024 items, `maxsize`
1024), the listener's push for a data datagram waits unboundedly for queue
space; it is neither an enqueue within a timeout nor a drop. -/
theorem handler_full_queue_counterexample :
    receivedUDPHandler_handle
        { mainSize := 1024, mainMaxsize := 1024, querySize := 0, queryMaxsize := 1024 }
        "data" = PutOutcome.blockedUntilSpace ∧
    PutOutcome.blockedUntilSpace ≠ PutOutcome.enqueued ∧
    PutOutcome.blockedUntilSpace ≠ PutOutcome.droppedAfterTimeout := by
  refine ⟨?_, by decide, by decide⟩
  rfl

/-- C6 (amended): the listener's push never drops a datagram.  When the
destination bounded queue is full the push waits, with no timeout, until
space appears; otherwise it enqueues immediately. -/
theorem handler_push_never_drops (q : RouterQueues) (data : String) :
    receivedUDPHandler_handle q data ≠ PutOutcome.droppedAfterTimeout ∧
    (data.take GET_VALUE_LENGTH ≠ GET_VALUE_MESSAGE → 0 < q.mainMaxsize →
      q.mainMaxsize ≤ (q.mainSize : Int) →
      receivedUDPHandler_handle q data = PutOutcome.blockedUntilSpace) ∧
    (data.take GET_VALUE_LENGTH = GET_VALUE_MESSAGE → 0 < q.queryMaxsize →
      q.queryMaxsize ≤ (q.querySize : Int) →
      receivedUDPHandler_handle q data = PutOutcome.blockedUntilSpace) := by
  unfold receivedUDPHandler_handle pythonBlockingPut
  by_cases hq : data.take GET_VALUE_LENGTH = GET_VALUE_MESSAGE
  · rw [if_pos hq]
    refine ⟨?_, fun h => absurd hq h, fun _ h1 h2 => ?_⟩
    · split
      · exact fun h => PutOutcome.noConfusion h
      · split
        · exact fun h => PutOutcome.noConfusion h
        · exact fun h => PutOutcome.noConfusion h
    · rw [if_neg (by omega), if_neg (by omega)]
  · rw [if_neg hq]
    refine ⟨?_, fun _ h1 h2 => ?_, fun h => absurd h hq⟩
    · split
      · exact fun h => PutOutcome.noConfusion h
      · split
        · exact fun h => PutOutcome.noConfusion h
        · exact fun h => PutOutcome.noConfusion h
    · rw [if_neg (by omega), if_neg (by omega)]

/-- Witness for `handler_push_never_drops` on a full bounded main queue. -/
theorem handler_push_never_drops_witness :
    receivedUDPHandler_handle
        { mainSize := 2, mainMaxsize := 2, querySize := 0, queryMaxsize := 4 }
        "x" = PutOutcome.blockedUntilSpace ∧
    receivedUDPHandler_handle
        { mainSize := 2, mainMaxsize := 2, querySize := 0, queryMaxsize := 4 }
        "x" ≠ PutOutcome.droppedAfterTimeout :=
  ⟨(handler_push_never_drops
      { mainSize := 2, mainMaxsize := 2, querySize := 0, queryMaxsize := 4 } "x").2.1
      (by decide) (by decide) (by decide),
   (handler_push_never_drops
      { mainSize := 2, mainMaxsize := 2, querySize := 0, queryMaxsize := 4 } "x").1⟩

/-- C10: for every configuration accepted by the start-up sanity check, the
`__main__` sequence of `procem_rtl.py` raises `TypeError` at the
`SimpleIoTTicketClient` construction (five arguments against a
three-parameter `__init__`) and therefore never reaches the UDP-server
start. -/
theorem routerStartup_typeError (c : RouterConfig)
    (h : configCheckPasses c = true) :
    routerStartup c = StartupOutcome.typeErrorAtClientInit ∧
    routerStartup c ≠ StartupOutcome.udpServerStarted := by
  unfold routerStartup
  rw [h]
  refine ⟨by rfl, by rw [show (pythonCallBinds simpleIoTTicketClient_init_arity
    mainClientCallArity) = false from rfl]; decide⟩

/-- Witness for `routerStartup_typeError` at a complete configuration. -/
theorem routerStartup_typeError_witness :
    routerStartup { deviceid := "d", username := "u", password := "p", baseurl := "b" }
      = StartupOutcome.typeErrorAtClientInit :=
  (routerStartup_typeError
    { deviceid := "d", username := "u", password := "p", baseurl := "b" }
    (by decide)).1

/-! ## Latest-value store (`utils/datastorage.py`)

`DataStorage` keeps, per measurement id, a list of `(value, timestamp)`
pairs.  Stored Python values (doubles, longs, booleans) are modelled by an
integer code `v` respecting the order Python uses in `ValueTs.__lt__`; the
store's algorithms only compare values, never compute with them.  The dict
`self.__data` is modelled as a function `Int → Option (List ValueTs)`
(`none` = key absent), `self.__individual_limits` likewise. -/

/-- `ValueTs` from `utils/datastorage.py` lines 16-32. -/
structure ValueTs where
  v : Int
  ts : Int
deriving DecidableEq, Repr

instance : Inhabited ValueTs := ⟨⟨0, 0⟩⟩

/-- `ValueTs.__lt__` (`datastorage.py` lines 25-26): lexicographic on
`(ts, v)`. -/
def ValueTs.pyLt (a b : ValueTs) : Bool :=
  a.ts < b.ts || (a.ts == b.ts && a.v < b.v)

/-- Python `bisect.bisect_left(items, x)`.  Its contract assumes `items`
sorted w.r.t. `__lt__`, and then the insertion point it computes is the
length of the maximal prefix of elements strictly below `x`.  Every list
`DataStorage` stores is kept sorted (proved below), so this model is
faithful at every call site (`datastorage.py` line 113). -/
def bisect_left (items : List ValueTs) (x : ValueTs) : Nat :=
  (items.takeWhile (fun a => a.pyLt x)).length

/-- Python list slice `items[-limit:]` for a possibly non-positive integer
`limit` (`datastorage.py` lines 52 and 77): for `limit > 0` it keeps the
last `limit` elements; for `limit = 0` it is `items[0:]`, i.e. the whole
list; for negative `limit` it is `items[(-limit):]`. -/
def pySliceLast (items : List ValueTs) (limit : Int) : List ValueTs :=
  if 0 < limit then items.drop (items.length - limit.toNat)
  else items.drop (-limit).toNat

/-- Python dict assignment `d[k] = v`. -/
def pyDictSet {α : Type} (f : Int → Option α) (k : Int) (v : α) : Int → Option α :=
  fun x => if x = k then some v else f x

/-- The state of a `DataStorage` object (`datastorage.py` lines 38-43). -/
structure DataStorage where
  data : Int → Option (List ValueTs)
  limit : Int
  individual_limits : Int → Option Int

/-- `DataStorage.__init__` (`datastorage.py` lines 38-43); the Python
default for `limit` is 1. -/
def mkDataStorage (limit : Int) : DataStorage :=
  { data := fun _ => none, limit := limit, individual_limits := fun _ => none }

/-- The `limit` in force for an id — `add_value` lines 58-61: the individual
limit when one was set with `set_id_limit`, otherwise the constructor
limit. -/
def cap (s : DataStorage) (rtl_id : Int) : Int :=
  match s.individual_limits rtl_id with
  | some l => l
  | none => s.limit

/-- `DataStorage.get_index` (`datastorage.py` lines 104-121) applied to the
list stored for one id (the `rtl_id not in self.__data` case is handled by
the caller `get_index` below). -/
def get_index_list (items : List ValueTs) (timestamp : Int) : Nat × Bool :=
  if items.length = 0 then (0, false)
  else
    let index := bisect_left items ⟨0, timestamp⟩
    if index < items.length && (items.getD index default).ts == timestamp then
      (index, true)
    else if index < items.length - 1 && (items.getD (index + 1) default).ts == timestamp then
      (index + 1, true)
    else if 0 < index && (items.getD (index - 1) default).ts == timestamp then
      (index - 1, true)
    else
      (index, false)

/-- `DataStorage.get_index` (`datastorage.py` lines 104-121). -/
def get_index (s : DataStorage) (rtl_id : Int) (timestamp : Int) : Nat × Bool :=
  match s.data rtl_id with
  | none => (0, false)
  | some items => get_index_list items timestamp

/-- `DataStorage.add_value` (`datastorage.py` lines 54-77). -/
def add_value (s : DataStorage) (rtl_id : Int) (value : Int) (timestamp : Int) :
    DataStorage :=
  let new_value : ValueTs := ⟨value, timestamp⟩
  let limit : Int := cap s rtl_id
  match s.data rtl_id with
  | none =>
    { s with data := pyDictSet s.data rtl_id [new_value] }
  | some items =>
    if new_value ∈ items then s
    else
      let gi := get_index_list items timestamp
      if gi.2 then
        { s with data := pyDictSet s.data rtl_id (items.set gi.1 new_value) }
      else
        let inserted := items.insertIdx gi.1 new_value
        if (inserted.length : Int) > limit then
          { s with data := pyDictSet s.data rtl_id (pySliceLast inserted limit) }
        else
          { s with data := pyDictSet s.data rtl_id inserted }

/-- `DataStorage.set_id_limit` (`datastorage.py` lines 45-52). -/
def set_id_limit (s : DataStorage) (rtl_id : Int) (limit : Int) : DataStorage :=
  let s1 := { s with individual_limits := pyDictSet s.individual_limits rtl_id limit }
  match s.data rtl_id with
  | none => s1
  | some items =>
    if (items.length : Int) > limit then
      { s1 with data := pyDictSet s1.data rtl_id (pySliceLast items limit) }
    else s1

/-- One public mutating operation of `DataStorage`. -/
inductive StorageOp
  | add (rtl_id value timestamp : Int)
  | setLimit (rtl_id limit : Int)
deriving DecidableEq, Repr

/-- Apply one operation. -/
def applyOp (s : DataStorage) : StorageOp → DataStorage
  | StorageOp.add i v t => add_value s i v t
  | StorageOp.setLimit i l => set_id_limit s i l

/-- Apply a finite sequence of operations, oldest first. -/
def applyOps (s : DataStorage) (ops : List StorageOp) : DataStorage :=
  ops.foldl applyOp s

/-- Strict ascending timestamp order — the shape every stored list keeps. -/
def TsSorted (l : List ValueTs) : Prop :=
  l.Pairwise (fun a b => a.ts < b.ts)

/-- An operation sequence is cap-respecting when every individual limit it
sets is at least 1. -/
def opOK : StorageOp → Prop
  | StorageOp.add _ _ _ => True
  | StorageOp.setLimit _ lim => 1 ≤ lim

/-! ### Facts about `bisect_left` and `get_index` on sorted lists -/

theorem pyLt_key_iff (a : ValueTs) (T : Int) :
    a.pyLt ⟨0, T⟩ = true ↔ (a.ts < T ∨ (a.ts = T ∧ a.v < 0)) := by
  simp [ValueTs.pyLt]

theorem pyLt_key_false_of_gt (b : ValueTs) (T : Int) (h : T < b.ts) :
    b.pyLt ⟨0, T⟩ = false := by
  rw [Bool.eq_false_iff]
  intro hc
  rcases (pyLt_key_iff b T).mp hc with h1 | ⟨h2, h3⟩ <;> omega

theorem takeWhile_append_of_all {p : ValueTs → Bool} :
    ∀ (P rest : List ValueTs), (∀ a ∈ P, p a = true) →
      (P ++ rest).takeWhile p = P ++ rest.takeWhile p := by
  intro P
  induction P with
  | nil => intro rest _; rfl
  | cons a P ih =>
    intro rest h
    have ha : p a = true := h a (List.mem_cons_self a P)
    simp only [List.cons_append, List.takeWhile_cons, ha, if_true]
    rw [ih rest (fun b hb => h b (List.mem_cons_of_mem a hb))]

theorem takeWhile_eq_nil_of_all {p : ValueTs → Bool} (l : List ValueTs)
    (h : ∀ a ∈ l, p a = false) : l.takeWhile p = [] := by
  cases l with
  | nil => rfl
  | cons a l => simp [List.takeWhile_cons, h a (List.mem_cons_self a l)]

theorem TsSorted_decomp {P S : List ValueTs} {e : ValueTs}
    (h : TsSorted (P ++ e :: S)) :
    P.Pairwise (fun a b => a.ts < b.ts) ∧ S.Pairwise (fun a b => a.ts < b.ts) ∧
    (∀ a ∈ P, a.ts < e.ts) ∧ (∀ b ∈ S, e.ts < b.ts) ∧
    (∀ a ∈ P, ∀ b ∈ S, a.ts < b.ts) := by
  rw [TsSorted, List.pairwise_append] at h
  obtain ⟨hP, hcons, hcross⟩ := h
  rw [List.pairwise_cons] at hcons
  exact ⟨hP, hcons.2, fun a ha => hcross a ha e (List.mem_cons_self e S),
    hcons.1, fun a ha b hb => hcross a ha b (List.mem_cons_of_mem e hb)⟩

theorem TsSorted_middle {P S : List ValueTs} {x : ValueTs}
    (hP : P.Pairwise (fun a b => a.ts < b.ts)) (hS : S.Pairwise (fun a b => a.ts < b.ts))
    (hPx : ∀ a ∈ P, a.ts < x.ts) (hxS : ∀ b ∈ S, x.ts < b.ts)
    (hPS : ∀ a ∈ P, ∀ b ∈ S, a.ts < b.ts) :
    TsSorted (P ++ x :: S) := by
  rw [TsSorted, List.pairwise_append]
  refine ⟨hP, ?_, ?_⟩
  · rw [List.pairwise_cons]
    exact ⟨hxS, hS⟩
  · intro a ha b hb
    rcases List.mem_cons.mp hb with rfl | hb2
    · exact hPx a ha
    · exact hPS a ha b hb2

theorem set_at_middle (P S : List ValueTs) (e x : ValueTs) :
    (P ++ e :: S).set P.length x = P ++ x :: S := by
  induction P with
  | nil => rfl
  | cons p P ih => simp [List.set_cons_succ, ih]

theorem insertIdx_at_append (A B : List ValueTs) (x : ValueTs) :
    (A ++ B).insertIdx A.length x = A ++ x :: B := by
  induction A with
  | nil => rfl
  | cons a A ih => simp [List.insertIdx_succ_cons, ih]

theorem getElem?_append_middle (P S : List ValueTs) (e : ValueTs) :
    (P ++ e :: S)[P.length]? = some e := by
  rw [List.getElem?_append_right le_rfl]
  simp

theorem insertIdx_takeWhile_length (p : ValueTs → Bool) (items : List ValueTs)
    (x : ValueTs) :
    items.insertIdx (items.takeWhile p).length x
      = items.takeWhile p ++ x :: items.dropWhile p := by
  induction items with
  | nil => rfl
  | cons a l ih =>
    by_cases hpa : p a
    · simp only [List.takeWhile_cons, List.dropWhile_cons, hpa, if_true, List.length_cons,
        List.insertIdx_succ_cons, List.cons_append]
      rw [ih]
    · simp [List.takeWhile_cons, List.dropWhile_cons, hpa]

theorem get_index_list_hit (P S : List ValueTs) (e : ValueTs) (T : Int)
    (hts : e.ts = T) (hP : ∀ a ∈ P, a.ts < T) (hS : ∀ b ∈ S, T < b.ts) :
    get_index_list (P ++ e :: S) T = (P.length, true) := by
  have hPp : ∀ a ∈ P, a.pyLt ⟨0, T⟩ = true :=
    fun a ha => (pyLt_key_iff a T).mpr (Or.inl (hP a ha))
  have hSp : ∀ b ∈ S, b.pyLt ⟨0, T⟩ = false :=
    fun b hb => pyLt_key_false_of_gt b T (hS b hb)
  unfold get_index_list bisect_left
  rw [if_neg (by simp)]
  rw [takeWhile_append_of_all P (e :: S) hPp]
  have hd0 : (P ++ e :: S).getD P.length default = e := by
    rw [List.getD_append_right P (e :: S) default P.length le_rfl]
    simp
  by_cases hv : e.v < 0
  · have hpe : e.pyLt ⟨0, T⟩ = true := (pyLt_key_iff e T).mpr (Or.inr ⟨hts, hv⟩)
    have htw : (e :: S).takeWhile (fun a => a.pyLt ⟨0, T⟩) = [e] := by
      rw [List.takeWhile_cons, if_pos hpe, takeWhile_eq_nil_of_all S hSp]
    rw [htw]
    have hidx : (P ++ [e]).length = P.length + 1 := by simp
    rw [hidx]
    rcases S with _ | ⟨s, S2⟩
    · rw [if_neg (by simp only [hidx, Bool.and_eq_true, decide_eq_true_eq, not_and]; intro h1; omega)]
      rw [if_neg (by simp only [hidx, Bool.and_eq_true, decide_eq_true_eq, not_and]; intro h1; omega)]
      rw [if_pos (by simp only [Nat.add_sub_cancel, hd0, Bool.and_eq_true, decide_eq_true_eq, beq_iff_eq]; exact ⟨by omega, hts⟩)]
      simp
    · have hds : (P ++ e :: s :: S2).getD (P.length + 1) default = s := by
        rw [List.getD_append_right P (e :: s :: S2) default (P.length + 1) (by omega)]
        simp
      have hsT : T < s.ts := hS s (List.mem_cons_self s S2)
      rw [if_neg (by simp only [hds, Bool.and_eq_true, decide_eq_true_eq, beq_iff_eq, not_and]; intro h1; omega)]
      rcases S2 with _ | ⟨s2, S3⟩
      · have hlen2 : (P ++ [e, s]).length = P.length + 2 := by simp
        rw [if_neg (by simp only [hlen2, Bool.and_eq_true, decide_eq_true_eq, not_and]; intro h1; omega)]
        rw [if_pos (by simp only [Nat.add_sub_cancel, hd0, Bool.and_eq_true, decide_eq_true_eq, beq_iff_eq]; exact ⟨by omega, hts⟩)]
        simp
      · have hds2 : (P ++ e :: s :: s2 :: S3).getD (P.length + 1 + 1) default = s2 := by
          rw [List.getD_append_right P (e :: s :: s2 :: S3) default (P.length + 1 + 1)
            (by omega)]
          have harith : P.length + 1 + 1 - P.length = 2 := by omega
          rw [harith]
          rfl
        have hs2T : T < s2.ts := hS s2 (by simp)
        rw [if_neg (by simp only [hds2, Bool.and_eq_true, decide_eq_true_eq, beq_iff_eq, not_and]; intro h1; omega)]
        rw [if_pos (by simp only [Nat.add_sub_cancel, hd0, Bool.and_eq_true, decide_eq_true_eq, beq_iff_eq]; exact ⟨by omega, hts⟩)]
        simp
  · have hpe : e.pyLt ⟨0, T⟩ = false := by
      rw [Bool.eq_false_iff]
      intro hc
      rcases (pyLt_key_iff e T).mp hc with h1 | ⟨h2, h3⟩ <;> omega
    have htw : (e :: S).takeWhile (fun a => a.pyLt ⟨0, T⟩) = [] := by
      rw [List.takeWhile_cons, if_neg (by rw [hpe]; exact Bool.false_ne_true)]
    rw [htw, List.append_nil]
    have hlen : (P ++ e :: S).length = P.length + 1 + S.length := by
      simp
      omega
    rw [if_pos (by simp only [hlen, hd0, Bool.and_eq_true, decide_eq_true_eq, beq_iff_eq]; exact ⟨by omega, hts⟩)]

theorem dropWhile_head_false {p : ValueTs → Bool} :
    ∀ (l : List ValueTs) (b : ValueTs) (B : List ValueTs),
      l.dropWhile p = b :: B → p b = false := by
  intro l
  induction l with
  | nil => intro b B h; exact absurd h (by simp)
  | cons a l ih =>
    intro b B h
    rw [List.dropWhile_cons] at h
    by_cases hpa : p a = true
    · rw [if_pos hpa] at h
      exact ih b B h
    · rw [if_neg hpa] at h
      cases h
      exact Bool.eq_false_iff.mpr hpa

theorem get_index_list_miss (l : List ValueTs) (T : Int)
    (hsorted : TsSorted l) (hno : ∀ a ∈ l, a.ts ≠ T) :
    get_index_list l T
        = ((l.takeWhile (fun a => a.pyLt ⟨0, T⟩)).length, false) ∧
      (∀ a ∈ l.takeWhile (fun a => a.pyLt ⟨0, T⟩), a.ts < T) ∧
      (∀ b ∈ l.dropWhile (fun a => a.pyLt ⟨0, T⟩), T < b.ts) := by
  have hA : ∀ a ∈ l.takeWhile (fun a => a.pyLt ⟨0, T⟩), a.ts < T := by
    intro a ha
    have hpa := List.mem_takeWhile_imp ha
    have hmem : a ∈ l := (List.takeWhile_sublist _).subset ha
    rcases (pyLt_key_iff a T).mp hpa with h1 | ⟨h2, h3⟩
    · exact h1
    · exact absurd h2 (hno a hmem)
  have hB : ∀ b ∈ l.dropWhile (fun a => a.pyLt ⟨0, T⟩), T < b.ts := by
    rcases hdrop : l.dropWhile (fun a => a.pyLt ⟨0, T⟩) with _ | ⟨b0, B2⟩
    · intro b hb
      rw [hdrop] at hb
      exact absurd hb (List.not_mem_nil b)
    · have hpl : l = l.takeWhile (fun a => a.pyLt ⟨0, T⟩) ++ b0 :: B2 := by
        rw [← hdrop, List.takeWhile_append_dropWhile]
      have hb0l : b0 ∈ l := by
        rw [hpl]
        simp
      have hpb0 := dropWhile_head_false l b0 B2 hdrop
      have hb0T : T < b0.ts := by
        rcases lt_trichotomy b0.ts T with h | h | h
        · rw [(pyLt_key_iff b0 T).mpr (Or.inl h)] at hpb0
          exact absurd hpb0 (by simp)
        · exact absurd h (hno b0 hb0l)
        · exact h
      have hdec := TsSorted_decomp (hpl ▸ hsorted)
      intro b hb
      rw [hdrop] at hb
      rcases List.mem_cons.mp hb with rfl | hb2
      · exact hb0T
      · exact lt_trans hb0T (hdec.2.2.2.1 b hb2)
  refine ⟨?_, hA, hB⟩
  by_cases hl0 : l = []
  · subst hl0
    rfl
  have hlne : l.length ≠ 0 := fun h => hl0 (List.length_eq_zero.mp h)
  unfold get_index_list bisect_left
  rw [if_neg hlne]
  have hpl : l = l.takeWhile (fun a => a.pyLt ⟨0, T⟩)
      ++ l.dropWhile (fun a => a.pyLt ⟨0, T⟩) :=
    (List.takeWhile_append_dropWhile (p := fun a => a.pyLt ⟨0, T⟩) (l := l)).symm
  set A := l.takeWhile (fun a => a.pyLt ⟨0, T⟩) with hAdef
  set B := l.dropWhile (fun a => a.pyLt ⟨0, T⟩) with hBdef
  have hlenl : l.length = A.length + B.length := by
    conv_lhs => rw [hpl]
    simp
  rcases hBcases : B with _ | ⟨b0, B2⟩
  · -- every element is strictly below the key: the insertion point is the end
    have hAl : A.length = l.length := by
      rw [hlenl, hBcases]
      simp
    have hA0 : 0 < A.length := by omega
    have hgd : l.getD (A.length - 1) default ∈ A := by
      have hlt : A.length - 1 < A.length := by omega
      have heq : l.getD (A.length - 1) default = A.getD (A.length - 1) default := by
        conv_lhs => rw [hpl, hBcases, List.append_nil]
      rw [heq, List.getD_eq_getElem A default hlt]
      exact List.getElem_mem hlt
    have hts := hA _ hgd
    rw [if_neg (by simp only [hAl, Bool.and_eq_true, decide_eq_true_eq, not_and]; intro h1; exact absurd h1 (by omega))]
    rw [if_neg (by simp only [hAl, Bool.and_eq_true, decide_eq_true_eq, not_and]; intro h1; exact absurd h1 (by omega))]
    rw [if_neg (by simp only [Bool.and_eq_true, decide_eq_true_eq, beq_iff_eq, not_and]; intro h1; omega)]
  · have hgd0 : l.getD A.length default = b0 := by
      rw [hpl, hBcases, List.getD_append_right A (b0 :: B2) default A.length le_rfl]
      simp
    have hb0T : T < b0.ts := by
      apply hB
      rw [hBcases]
      exact List.mem_cons_self b0 B2
    rw [if_neg (by simp only [hgd0, Bool.and_eq_true, decide_eq_true_eq, beq_iff_eq, not_and]; intro h1; omega)]
    rw [if_neg (show ¬_ = true by
      rcases hB2cases : B2 with _ | ⟨b1, B3⟩
      · have hlen1 : l.length = A.length + 1 := by
          rw [hlenl, hBcases, hB2cases]
          simp
        simp only [hlen1, Bool.and_eq_true, decide_eq_true_eq, not_and]
        intro h1
        exact absurd h1 (by omega)
      · have hgd1 : l.getD (A.length + 1) default = b1 := by
          rw [hpl, hBcases, hB2cases,
            List.getD_append_right A (b0 :: b1 :: B3) default (A.length + 1) (by omega)]
          have harith : A.length + 1 - A.length = 1 := by omega
          rw [harith]
          rfl
        have hb1T : T < b1.ts := by
          apply hB
          rw [hBcases, hB2cases]
          simp
        simp only [hgd1, Bool.and_eq_true, decide_eq_true_eq, beq_iff_eq, not_and]
        intro h1
        omega)]
    rw [if_neg (show ¬_ = true by
      by_cases hA0 : 0 < A.length
      · have hgdm : l.getD (A.length - 1) default ∈ A := by
          have hlt : A.length - 1 < A.length := by omega
          have heq : l.getD (A.length - 1) default = A.getD (A.length - 1) default := by
            conv_lhs => rw [hpl]
            rw [List.getD_append A _ default _ hlt]
          rw [heq, List.getD_eq_getElem A default hlt]
          exact List.getElem_mem hlt
        have hts := hA _ hgdm
        simp only [Bool.and_eq_true, decide_eq_true_eq, beq_iff_eq, not_and]
        intro h1
        omega
      · simp only [Bool.and_eq_true, decide_eq_true_eq, not_and]
        intro h1
        exact absurd h1 (by omega))]

/-! ### Preservation of the store invariants -/

/-- Every list stored in `s` is in strict ascending timestamp order. -/
def StoreSorted (s : DataStorage) : Prop :=
  ∀ i l, s.data i = some l → TsSorted l

theorem TsSorted_pySliceLast {l : List ValueTs} (h : TsSorted l) (k : Int) :
    TsSorted (pySliceLast l k) := by
  unfold pySliceLast
  split
  · exact List.Pairwise.sublist (List.drop_sublist _ _) h
  · exact List.Pairwise.sublist (List.drop_sublist _ _) h

theorem add_value_limits_eq (s : DataStorage) (rtl_id value timestamp : Int) :
    (add_value s rtl_id value timestamp).limit = s.limit ∧
    (add_value s rtl_id value timestamp).individual_limits = s.individual_limits := by
  unfold add_value
  split
  · exact ⟨rfl, rfl⟩
  · dsimp only
    split
    · exact ⟨rfl, rfl⟩
    · split
      · exact ⟨rfl, rfl⟩
      · split
        · exact ⟨rfl, rfl⟩
        · exact ⟨rfl, rfl⟩

theorem cap_add_value (s : DataStorage) (rtl_id value timestamp : Int) (i : Int) :
    cap (add_value s rtl_id value timestamp) i = cap s i := by
  unfold cap
  rw [(add_value_limits_eq s rtl_id value timestamp).1,
    (add_value_limits_eq s rtl_id value timestamp).2]

/-- The result of `add_value` on a miss (no stored element carries the new
timestamp): sorted insertion at the `bisect_left` point followed by the
Python tail slice when the list outgrew its cap. -/
theorem add_value_miss_eq (s : DataStorage) (rtl_id value timestamp : Int)
    (items : List ValueTs)
    (hdata : s.data rtl_id = some items)
    (hmem : ValueTs.mk value timestamp ∉ items)
    (hgi : get_index_list items timestamp
      = ((items.takeWhile (fun a => a.pyLt ⟨0, timestamp⟩)).length, false)) :
    (add_value s rtl_id value timestamp).data rtl_id
      = some (if (((items.takeWhile (fun a => a.pyLt ⟨0, timestamp⟩) ++ ValueTs.mk value timestamp :: items.dropWhile (fun a => a.pyLt ⟨0, timestamp⟩)).length : Int) > cap s rtl_id) then pySliceLast (items.takeWhile (fun a => a.pyLt ⟨0, timestamp⟩) ++ ValueTs.mk value timestamp :: items.dropWhile (fun a => a.pyLt ⟨0, timestamp⟩)) (cap s rtl_id) else items.takeWhile (fun a => a.pyLt ⟨0, timestamp⟩) ++ ValueTs.mk value timestamp :: items.dropWhile (fun a => a.pyLt ⟨0, timestamp⟩)) := by
  unfold add_value
  rw [hdata]
  dsimp only
  rw [if_neg hmem]
  rw [hgi]
  dsimp only
  rw [insertIdx_takeWhile_length]
  rw [if_neg (show ¬(false = true) by simp)]
  split
  · simp [pyDictSet]
  · simp [pyDictSet]

/-- Case analysis on what `add_value` does to the stored list of the touched
id.  Every reachable outcome for `s.data` is one of: untouched (duplicate
pair), a fresh singleton, an in-place replacement at the position of the
matching timestamp, or a sorted insertion followed by the Python tail
slice. -/
theorem add_value_data_cases (s : DataStorage) (rtl_id value timestamp : Int)
    (hsorted : StoreSorted s) :
    (∀ i, i ≠ rtl_id →
      (add_value s rtl_id value timestamp).data i = s.data i) ∧
    ((s.data rtl_id = none ∧
        (add_value s rtl_id value timestamp).data rtl_id = some [⟨value, timestamp⟩]) ∨
      (∃ items, s.data rtl_id = some items ∧ ⟨value, timestamp⟩ ∈ items ∧
        (add_value s rtl_id value timestamp).data rtl_id = some items) ∨
      (∃ P S e, s.data rtl_id = some (P ++ e :: S) ∧ e.ts = timestamp ∧
        ValueTs.mk value timestamp ∉ (P ++ e :: S) ∧
        (∀ a ∈ P, a.ts < timestamp) ∧ (∀ b ∈ S, timestamp < b.ts) ∧
        (add_value s rtl_id value timestamp).data rtl_id
          = some (P ++ ValueTs.mk value timestamp :: S)) ∨
      (∃ A B, s.data rtl_id = some (A ++ B) ∧
        (∀ a ∈ A, a.ts < timestamp) ∧ (∀ b ∈ B, timestamp < b.ts) ∧
        ((((A ++ ValueTs.mk value timestamp :: B).length : Int) > cap s rtl_id ∧
            (add_value s rtl_id value timestamp).data rtl_id
              = some (pySliceLast (A ++ ValueTs.mk value timestamp :: B)
                  (cap s rtl_id))) ∨
          (¬(((A ++ ValueTs.mk value timestamp :: B).length : Int) > cap s rtl_id) ∧
            (add_value s rtl_id value timestamp).data rtl_id
              = some (A ++ ValueTs.mk value timestamp :: B))))) := by
  constructor
  · intro i hi
    unfold add_value
    split
    · simp [pyDictSet, hi]
    · dsimp only
      split
      · rfl
      · split
        · simp [pyDictSet, hi]
        · split
          · simp [pyDictSet, hi]
          · simp [pyDictSet, hi]
  · rcases hdata : s.data rtl_id with _ | items
    · left
      refine ⟨rfl, ?_⟩
      unfold add_value
      rw [hdata]
      simp [pyDictSet]
    · have hits : TsSorted items := hsorted rtl_id items hdata
      by_cases hmem : ValueTs.mk value timestamp ∈ items
      · right; left
        refine ⟨items, rfl, hmem, ?_⟩
        unfold add_value
        rw [hdata]
        dsimp only
        rw [if_pos hmem]
        exact hdata
      · by_cases hex : ∃ e ∈ items, e.ts = timestamp
        · right; right; left
          obtain ⟨e, hemem, hets⟩ := hex
          obtain ⟨P, S, hPS⟩ := List.append_of_mem hemem
          subst hPS
          have hdec := TsSorted_decomp hits
          have hP : ∀ a ∈ P, a.ts < timestamp := by
            intro a ha
            have := hdec.2.2.1 a ha
            omega
          have hS : ∀ b ∈ S, timestamp < b.ts := by
            intro b hb
            have := hdec.2.2.2.1 b hb
            omega
          refine ⟨P, S, e, rfl, hets, hmem, hP, hS, ?_⟩
          unfold add_value
          rw [hdata]
          dsimp only
          rw [if_neg hmem]
          rw [get_index_list_hit P S e timestamp hets hP hS]
          simp [pyDictSet, set_at_middle]
        · right; right; right
          have hno : ∀ a ∈ items, a.ts ≠ timestamp := by
            intro a ha hc
            exact hex ⟨a, ha, hc⟩
          obtain ⟨hgi, hAlt, hBgt⟩ := get_index_list_miss items timestamp hits hno
          have hresult := add_value_miss_eq s rtl_id value timestamp items hdata hmem hgi
          refine ⟨items.takeWhile (fun a => a.pyLt ⟨0, timestamp⟩),
            items.dropWhile (fun a => a.pyLt ⟨0, timestamp⟩),
            by rw [List.takeWhile_append_dropWhile], hAlt, hBgt, ?_⟩
          by_cases hc : (((items.takeWhile (fun a => a.pyLt ⟨0, timestamp⟩)
              ++ ValueTs.mk value timestamp
                :: items.dropWhile (fun a => a.pyLt ⟨0, timestamp⟩)).length : Int)
              > cap s rtl_id)
          · left
            refine ⟨hc, ?_⟩
            rw [hresult, if_pos hc]
          · right
            refine ⟨hc, ?_⟩
            rw [hresult, if_neg hc]

theorem set_id_limit_cases (s : DataStorage) (rtl_id limit : Int) :
    (set_id_limit s rtl_id limit).limit = s.limit ∧
    (set_id_limit s rtl_id limit).individual_limits
      = pyDictSet s.individual_limits rtl_id limit ∧
    (∀ i, i ≠ rtl_id → (set_id_limit s rtl_id limit).data i = s.data i) ∧
    ((s.data rtl_id = none ∧ (set_id_limit s rtl_id limit).data rtl_id = none) ∨
      (∃ items, s.data rtl_id = some items ∧
        (((items.length : Int) > limit ∧
            (set_id_limit s rtl_id limit).data rtl_id
              = some (pySliceLast items limit)) ∨
          (¬((items.length : Int) > limit) ∧
            (set_id_limit s rtl_id limit).data rtl_id = some items)))) := by
  refine ⟨?_, ?_, ?_, ?_⟩
  · unfold set_id_limit
    dsimp only
    split
    · rfl
    · split
      · rfl
      · rfl
  · unfold set_id_limit
    dsimp only
    split
    · rfl
    · split
      · rfl
      · rfl
  · intro i hi
    unfold set_id_limit
    dsimp only
    split
    · rfl
    · split
      · simp [pyDictSet, hi]
      · rfl
  · rcases hdata : s.data rtl_id with _ | items
    · left
      refine ⟨rfl, ?_⟩
      unfold set_id_limit
      rw [hdata]
      exact hdata
    · right
      refine ⟨items, rfl, ?_⟩
      by_cases hc : (items.length : Int) > limit
      · left
        refine ⟨hc, ?_⟩
        unfold set_id_limit
        rw [hdata]
        dsimp only
        rw [if_pos hc]
        simp [pyDictSet]
      · right
        refine ⟨hc, ?_⟩
        unfold set_id_limit
        rw [hdata]
        dsimp only
        rw [if_neg hc]
        exact hdata

theorem set_id_limit_sorted (s : DataStorage) (rtl_id limit : Int)
    (hs : StoreSorted s) : StoreSorted (set_id_limit s rtl_id limit) := by
  intro i l hl
  obtain ⟨-, -, hother, hdataCase⟩ := set_id_limit_cases s rtl_id limit
  by_cases hi : i = rtl_id
  · subst hi
    rcases hdataCase with ⟨h1, h2⟩ | ⟨items, hitems, hcase⟩
    · rw [h2] at hl
      cases hl
    · rcases hcase with ⟨-, h2⟩ | ⟨-, h2⟩
      · rw [h2] at hl
        obtain rfl := Option.some.inj hl
        exact TsSorted_pySliceLast (hs _ _ hitems) _
      · rw [h2] at hl
        obtain rfl := Option.some.inj hl
        exact hs _ _ hitems
  · rw [hother i hi] at hl
    exact hs i l hl

theorem add_value_sorted (s : DataStorage) (rtl_id value timestamp : Int)
    (hs : StoreSorted s) : StoreSorted (add_value s rtl_id value timestamp) := by
  intro i l hl
  obtain ⟨hother, hcases⟩ := add_value_data_cases s rtl_id value timestamp hs
  by_cases hi : i = rtl_id
  · subst hi
    rcases hcases with ⟨h1, h2⟩ | ⟨items, h1, hmem, h2⟩
      | ⟨P, S, e, h1, hets, hmem, hP, hS, h2⟩ | ⟨A, B, h1, hA, hB, hcase⟩
    · rw [h2] at hl
      obtain rfl := Option.some.inj hl
      exact List.pairwise_singleton _ _
    · rw [h2] at hl
      obtain rfl := Option.some.inj hl
      exact hs _ _ h1
    · rw [h2] at hl
      obtain rfl := Option.some.inj hl
      have hdec := TsSorted_decomp (hs _ _ h1)
      exact TsSorted_middle hdec.1 hdec.2.1 hP hS
        (fun a ha b hb => lt_trans (hP a ha) (hS b hb))
    · have hsAB := hs _ _ h1
      rw [TsSorted, List.pairwise_append] at hsAB
      obtain ⟨pA, pB, pcross⟩ := hsAB
      have hmid : TsSorted (A ++ ValueTs.mk value timestamp :: B) :=
        TsSorted_middle pA pB hA hB pcross
      rcases hcase with ⟨-, h2⟩ | ⟨-, h2⟩
      · rw [h2] at hl
        obtain rfl := Option.some.inj hl
        exact TsSorted_pySliceLast hmid _
      · rw [h2] at hl
        obtain rfl := Option.some.inj hl
        exact hmid
  · rw [hother i hi] at hl
    exact hs i l hl

theorem applyOp_sorted (s : DataStorage) (op : StorageOp) (hs : StoreSorted s) :
    StoreSorted (applyOp s op) := by
  cases op with
  | add i v t => exact add_value_sorted s i v t hs
  | setLimit i l => exact set_id_limit_sorted s i l hs

theorem applyOps_sorted (s : DataStorage) (ops : List StorageOp) (hs : StoreSorted s) :
    StoreSorted (applyOps s ops) := by
  induction ops generalizing s with
  | nil => exact hs
  | cons op ops ih => exact ih _ (applyOp_sorted s op hs)

theorem mkDataStorage_sorted (L : Int) : StoreSorted (mkDataStorage L) := by
  intro i l hl
  cases hl

/-! ### The bounded-length invariant -/

/-- The cap-respecting store invariant: the constructor limit and every
individual limit are at least 1, and every stored list respects its id's
cap. -/
def StoreInv (s : DataStorage) : Prop :=
  1 ≤ s.limit ∧ (∀ i L, s.individual_limits i = some L → 1 ≤ L) ∧
  (∀ i l, s.data i = some l → (l.length : Int) ≤ cap s i)

theorem cap_pos (s : DataStorage) (i : Int) (h1 : 1 ≤ s.limit)
    (h2 : ∀ j L, s.individual_limits j = some L → 1 ≤ L) : 1 ≤ cap s i := by
  unfold cap
  split
  · rename_i L hL
    exact h2 i L hL
  · exact h1

theorem pySliceLast_length_of_pos {l : List ValueTs} {k : Int}
    (hk : 1 ≤ k) (hlen : k < (l.length : Int)) :
    ((pySliceLast l k).length : Int) = k := by
  unfold pySliceLast
  rw [if_pos (by omega)]
  rw [List.length_drop]
  omega

theorem cap_set_id_limit (s : DataStorage) (rtl_id limit : Int) (i : Int) :
    cap (set_id_limit s rtl_id limit) i = if i = rtl_id then limit else cap s i := by
  obtain ⟨hlim, hind, -, -⟩ := set_id_limit_cases s rtl_id limit
  unfold cap
  rw [hind]
  by_cases hi : i = rtl_id
  · simp [pyDictSet, hi, hlim]
  · simp [pyDictSet, hi, hlim]

theorem add_value_inv (s : DataStorage) (rtl_id value timestamp : Int)
    (hs : StoreSorted s) (hinv : StoreInv s) :
    StoreInv (add_value s rtl_id value timestamp) := by
  obtain ⟨hlim1, hind1, hlen1⟩ := hinv
  obtain ⟨hlimEq, hindEq⟩ := add_value_limits_eq s rtl_id value timestamp
  refine ⟨by rw [hlimEq]; exact hlim1, by rw [hindEq]; exact hind1, ?_⟩
  intro i l hl
  rw [cap_add_value]
  obtain ⟨hother, hcases⟩ := add_value_data_cases s rtl_id value timestamp hs
  by_cases hi : i = rtl_id
  · subst hi
    have hcappos : 1 ≤ cap s i := cap_pos s i hlim1 hind1
    rcases hcases with ⟨h1, h2⟩ | ⟨items, h1, hmem, h2⟩
      | ⟨P, S, e, h1, hets, hmem, hP, hS, h2⟩ | ⟨A, B, h1, hA, hB, hcase⟩
    · rw [h2] at hl
      obtain rfl := Option.some.inj hl
      simpa using hcappos
    · rw [h2] at hl
      obtain rfl := Option.some.inj hl
      exact hlen1 _ _ h1
    · rw [h2] at hl
      obtain rfl := Option.some.inj hl
      have hold := hlen1 _ _ h1
      simp only [List.length_append, List.length_cons] at hold ⊢
      exact hold
    · rcases hcase with ⟨hgt, h2⟩ | ⟨hle, h2⟩
      · rw [h2] at hl
        obtain rfl := Option.some.inj hl
        exact le_of_eq (pySliceLast_length_of_pos hcappos (by omega))
      · rw [h2] at hl
        obtain rfl := Option.some.inj hl
        omega
  · rw [hother i hi] at hl
    exact hlen1 i l hl

theorem set_id_limit_inv (s : DataStorage) (rtl_id limit : Int) (hlim : 1 ≤ limit)
    (hinv : StoreInv s) : StoreInv (set_id_limit s rtl_id limit) := by
  obtain ⟨hlim1, hind1, hlen1⟩ := hinv
  obtain ⟨hlimEq, hindEq, hother, hdataCase⟩ := set_id_limit_cases s rtl_id limit
  refine ⟨by rw [hlimEq]; exact hlim1, ?_, ?_⟩
  · intro i L hL
    rw [hindEq] at hL
    unfold pyDictSet at hL
    by_cases hi : i = rtl_id
    · rw [if_pos hi] at hL
      obtain rfl := Option.some.inj hL
      exact hlim
    · rw [if_neg hi] at hL
      exact hind1 i L hL
  · intro i l hl
    rw [cap_set_id_limit]
    by_cases hi : i = rtl_id
    · subst hi
      rw [if_pos rfl]
      rcases hdataCase with ⟨h1, h2⟩ | ⟨items, h1, hcase⟩
      · rw [h2] at hl
        cases hl
      · rcases hcase with ⟨hgt, h2⟩ | ⟨hle, h2⟩
        · rw [h2] at hl
          obtain rfl := Option.some.inj hl
          exact le_of_eq (pySliceLast_length_of_pos hlim (by omega))
        · rw [h2] at hl
          obtain rfl := Option.some.inj hl
          omega
    · rw [if_neg hi]
      rw [hother i hi] at hl
      exact hlen1 i l hl

theorem applyOps_inv (s : DataStorage) (ops : List StorageOp)
    (hs : StoreSorted s) (hinv : StoreInv s) (hops : ∀ op ∈ ops, opOK op) :
    StoreInv (applyOps s ops) := by
  induction ops generalizing s with
  | nil => exact hinv
  | cons op ops ih =>
    have h1 := hops op (List.mem_cons_self op ops)
    have hrest : ∀ o ∈ ops, opOK o := fun o ho => hops o (List.mem_cons_of_mem op ho)
    cases op with
    | add i v t =>
      exact ih _ (add_value_sorted s i v t hs) (add_value_inv s i v t hs hinv) hrest
    | setLimit i L =>
      exact ih _ (set_id_limit_sorted s i L hs) (set_id_limit_inv s i L h1 hinv) hrest

theorem mkDataStorage_inv (L : Int) (hL : 1 ≤ L) : StoreInv (mkDataStorage L) := by
  refine ⟨hL, ?_, ?_⟩
  · intro i L1 h
    simp [mkDataStorage] at h
  · intro i l h
    simp [mkDataStorage] at h

theorem TsSorted_ts_inj {l : List ValueTs} (h : TsSorted l) :
    ∀ {a b : ValueTs}, a ∈ l → b ∈ l → a.ts = b.ts → a = b := by
  induction l with
  | nil =>
    intro a b ha _ _
    exact absurd ha (List.not_mem_nil a)
  | cons x xs ih =>
    intro a b ha hb hts
    rw [TsSorted, List.pairwise_cons] at h
    rcases List.mem_cons.mp ha with rfl | ha2
    · rcases List.mem_cons.mp hb with rfl | hb2
      · rfl
      · exact absurd hts (ne_of_lt (h.1 b hb2))
    · rcases List.mem_cons.mp hb with rfl | hb2
      · exact absurd hts.symm (ne_of_lt (h.1 a ha2))
      · exact ih h.2 ha2 hb2 hts

theorem set_getElem?_ne :
    ∀ (l : List ValueTs) (j k : Nat) (x : ValueTs), k ≠ j →
      (l.set j x)[k]? = l[k]? := by
  intro l
  induction l with
  | nil =>
    intro j k x _
    rfl
  | cons a l ih =>
    intro j k x hk
    cases j with
    | zero =>
      cases k with
      | zero => exact absurd rfl hk
      | succ k => simp
    | succ j =>
      cases k with
      | zero => simp
      | succ k =>
        simp only [List.set_cons_succ, List.getElem?_cons_succ]
        exact ih j k x (fun h => hk (by rw [h]))

/-- C3 counterexample: with constructor limit 0 (a legal `DataStorage(0)`),
one `add_value` stores a list of length 1, which exceeds the cap 0 — so the
claim "length at most the id's cap" fails as stated.  (With cap 0 the
Python trim `items[-0:]` is the whole list, so nothing is ever evicted.) -/
theorem datastorage_cap_counterexample :
    (applyOps (mkDataStorage 0) [StorageOp.add 1 5 10]).data 1
        = some [ValueTs.mk 5 10] ∧
    cap (applyOps (mkDataStorage 0) [StorageOp.add 1 5 10]) 1 = 0 ∧
    ¬ ((([ValueTs.mk 5 10] : List ValueTs).length : Int)
        ≤ cap (applyOps (mkDataStorage 0) [StorageOp.add 1 5 10]) 1) := by
  refine ⟨by decide, by decide, by decide⟩

/-- C3 (amended): after every finite sequence of `add_value` and
`set_id_limit` operations on a `DataStorage` whose constructor limit is at
least 1 and whose individually set limits are all at least 1, every stored
sequence is sorted by timestamp ascending, contains no two equal
(value, timestamp) pairs, and has length at most that id's cap (the
individual limit if one was set, otherwise the constructor limit). -/
theorem datastorage_invariant (L : Int) (ops : List StorageOp) (hL : 1 ≤ L)
    (hops : ∀ op ∈ ops, opOK op) (i : Int) (l : List ValueTs)
    (hdata : (applyOps (mkDataStorage L) ops).data i = some l) :
    l.Pairwise (fun a b => a.ts ≤ b.ts) ∧ l.Nodup ∧
    (l.length : Int) ≤ cap (applyOps (mkDataStorage L) ops) i := by
  have hsorted := applyOps_sorted (mkDataStorage L) ops (mkDataStorage_sorted L) i l hdata
  have hinv := applyOps_inv (mkDataStorage L) ops (mkDataStorage_sorted L)
      (mkDataStorage_inv L hL) hops
  refine ⟨List.Pairwise.imp (fun h => le_of_lt h) hsorted, ?_, hinv.2.2 i l hdata⟩
  exact List.Pairwise.imp (fun h heq => absurd (heq ▸ h) (lt_irrefl _)) hsorted

/-- Witness for `datastorage_invariant`: limit 2, three inserts on id 1; the
oldest entry is evicted and the stored list is the sorted two newest. -/
theorem datastorage_invariant_witness :
    ([ValueTs.mk 6 20, ValueTs.mk 7 30] : List ValueTs).Pairwise
        (fun a b => a.ts ≤ b.ts) ∧
    ([ValueTs.mk 6 20, ValueTs.mk 7 30] : List ValueTs).Nodup ∧
    ((([ValueTs.mk 6 20, ValueTs.mk 7 30] : List ValueTs).length : Int)
      ≤ cap (applyOps (mkDataStorage 2)
          [StorageOp.add 1 5 10, StorageOp.add 1 6 20, StorageOp.add 1 7 30]) 1) :=
  datastorage_invariant 2
    [StorageOp.add 1 5 10, StorageOp.add 1 6 20, StorageOp.add 1 7 30]
    (by norm_num)
    (by intro op hop; fin_cases hop <;> trivial)
    1 [ValueTs.mk 6 20, ValueTs.mk 7 30] (by decide)

/-- C4: in any reachable store state whose list for `rtl_id` contains
`(v1, T)`, `add_value rtl_id v2 T` with `v2 ≠ v1` overwrites the value in
place: the entry at the position of `(v1, T)` becomes `(v2, T)`, the length
is unchanged, every other position is unchanged, and every other id's data
is unchanged. -/
theorem add_value_overwrites (L : Int) (ops : List StorageOp) (rtl_id v1 v2 T : Int)
    (l : List ValueTs)
    (hdata : (applyOps (mkDataStorage L) ops).data rtl_id = some l)
    (hmem : ValueTs.mk v1 T ∈ l) (hne : v2 ≠ v1) :
    ∃ j, l[j]? = some (ValueTs.mk v1 T) ∧
      (add_value (applyOps (mkDataStorage L) ops) rtl_id v2 T).data rtl_id
        = some (l.set j (ValueTs.mk v2 T)) ∧
      (l.set j (ValueTs.mk v2 T)).length = l.length ∧
      (∀ k, k ≠ j → (l.set j (ValueTs.mk v2 T))[k]? = l[k]?) ∧
      (∀ i2, i2 ≠ rtl_id →
        (add_value (applyOps (mkDataStorage L) ops) rtl_id v2 T).data i2
          = (applyOps (mkDataStorage L) ops).data i2) := by
  have hsorted := applyOps_sorted (mkDataStorage L) ops (mkDataStorage_sorted L)
  have hsl : TsSorted l := hsorted rtl_id l hdata
  have hnotmem : ValueTs.mk v2 T ∉ l := by
    intro hc
    have := TsSorted_ts_inj hsl hc hmem rfl
    exact hne (congrArg ValueTs.v this)
  obtain ⟨hother, hcases⟩ :=
    add_value_data_cases (applyOps (mkDataStorage L) ops) rtl_id v2 T hsorted
  rcases hcases with ⟨h1, h2⟩ | ⟨items, h1, hmem2, h2⟩
    | ⟨P, S, e, h1, hets, hmemx, hP, hS, h2⟩ | ⟨A, B, h1, hA, hB, hcase⟩
  · rw [h1] at hdata
    cases hdata
  · rw [hdata] at h1
    obtain rfl := Option.some.inj h1
    exact absurd hmem2 hnotmem
  · rw [hdata] at h1
    have heq : l = P ++ e :: S := Option.some.inj h1
    have hemem : e ∈ l := by
      rw [heq]
      simp
    have he : e = ValueTs.mk v1 T := TsSorted_ts_inj hsl hemem hmem hets
    refine ⟨P.length, ?_, ?_, ?_, ?_, hother⟩
    · rw [heq, getElem?_append_middle, he]
    · rw [h2, heq, set_at_middle]
    · rw [List.length_set]
    · intro k hk
      exact set_getElem?_ne l P.length k (ValueTs.mk v2 T) hk
  · rw [hdata] at h1
    have heq : l = A ++ B := Option.some.inj h1
    rw [heq] at hmem
    rcases List.mem_append.mp hmem with hin | hin
    · have := hA _ hin
      simp at this
    · have := hB _ hin
      simp at this

/-- Witness for `add_value_overwrites`: a store holding `(5, 10)` for id 1;
`add_value 1 7 10` replaces the value at timestamp 10 in place. -/
theorem add_value_overwrites_witness :
    ∃ j, ([ValueTs.mk 5 10] : List ValueTs)[j]? = some (ValueTs.mk 5 10) ∧
      (add_value (applyOps (mkDataStorage 1) [StorageOp.add 1 5 10]) 1 7 10).data 1
        = some (([ValueTs.mk 5 10] : List ValueTs).set j (ValueTs.mk 7 10)) ∧
      (([ValueTs.mk 5 10] : List ValueTs).set j (ValueTs.mk 7 10)).length
        = ([ValueTs.mk 5 10] : List ValueTs).length ∧
      (∀ k, k ≠ j →
        (([ValueTs.mk 5 10] : List ValueTs).set j (ValueTs.mk 7 10))[k]?
          = ([ValueTs.mk 5 10] : List ValueTs)[k]?) ∧
      (∀ i2, i2 ≠ 1 →
        (add_value (applyOps (mkDataStorage 1) [StorageOp.add 1 5 10]) 1 7 10).data i2
          = (applyOps (mkDataStorage 1) [StorageOp.add 1 5 10]).data i2) :=
  add_value_overwrites 1 [StorageOp.add 1 5 10] 1 5 7 10 [ValueTs.mk 5 10]
    (by decide) (by decide) (by decide)

/-! ## Wire packet validator (`adapters/common_utils.py` lines 91-125)

`getValidatedRTLpkts` splits the datagram into lines, parses each line with
`json.loads` and validates the fields.  The embedding starts at the parse
outcome of each line: `none` for a line `json.loads` rejects (or whose value
is not an object — any exception is caught by the per-line `except`), and
`some o` for a parsed object, restricted to the eight fields the validator
reads.  A JSON string field can contain any characters, including an escaped
newline. -/

/-- A Python scalar as `json.loads` produces it for a measurement field.
Python distinguishes `float`, `int` and `bool` by exact type (`type(v) ==
int` is false for `True`).  A JSON number with a fractional part becomes
`float`; its numeric value is irrelevant to validation, so floats carry an
opaque rational payload. -/
inductive PyVal
  | pstr (s : String)
  | pfloat (q : ℚ)
  | pint (n : Int)
  | pbool (b : Bool)
  | pnull
deriving DecidableEq, Repr

/-- One parsed JSON line, as the record of the fields the validator reads
(`data["name"]` … `data.get("secret", False)`); `none` means the key is
absent, so the corresponding `data[...]` lookup raises `KeyError`. -/
structure JObj where
  name : Option PyVal
  path : Option PyVal
  v : Option PyVal
  ts : Option PyVal
  unit : Option PyVal
  datatype : Option PyVal
  id : Option PyVal
  secret : Option PyVal
deriving DecidableEq, Repr

/-- The character class `[a-zA-Z0-9]` of the path pattern (ASCII). -/
def isPathAlnum (c : Char) : Bool :=
  c.isAlpha || c.isDigit

/-- One repetition `\/[a-zA-Z0-9]+` of the path pattern: a slash, then a
maximal nonempty alphanumeric run.  The greedy `+` is forced: a shorter run
leaves an alphanumeric in front, which neither a following `\/` nor the end
anchor can match, so no backtracking into the run can succeed. -/
def matchPathSeg : List Char → Option (List Char)
  | '/' :: c :: rest =>
    if isPathAlnum c then some (rest.dropWhile isPathAlnum) else none
  | _ => none

/-- Consume up to `fuel` repetitions greedily, returning how many were
consumed and the remainder.  The chain is deterministic: whenever the regex
could stop instead, the remainder is empty or starts the final newline, and
`matchPathSeg` fails on both, so the greedy count is the only possible
count. -/
def consumePathSegs : Nat → List Char → Nat × List Char
  | 0, cs => (0, cs)
  | fuel + 1, cs =>
    match matchPathSeg cs with
    | none => (0, cs)
    | some rest =>
      let r := consumePathSegs fuel rest
      (r.1 + 1, r.2)

/-- Python `re.match("(\\/[a-zA-Z0-9]+){1,10}$", path)` as a Bool:
`re.match` anchors at the start, and `$` matches at the end of the string or
just before a newline that is the string's last character. -/
def pathRegexMatch (s : String) : Bool :=
  let r := consumePathSegs 10 s.data
  decide (1 ≤ r.1) && (r.2 == ([] : List Char) || r.2 == ['\n'])

/-- Modelled from the spec: the §3 path pattern `(/[A-Za-z0-9]+){1..10}` as
a full match of the whole string — no trailing-newline allowance. -/
def specPathMatch (s : String) : Bool :=
  let r := consumePathSegs 10 s.data
  decide (1 ≤ r.1) && r.2 == ([] : List Char)

/-- Python `type(x) == str`. -/
def pyIsStr : PyVal → Bool
  | PyVal.pstr _ => true
  | _ => false

/-- The `str` payload (callers guard with `pyIsStr`). -/
def pyStrVal : PyVal → String
  | PyVal.pstr s => s
  | _ => ""

/-- Python `type(x) == float`. -/
def pyIsFloat : PyVal → Bool
  | PyVal.pfloat _ => true
  | _ => false

/-- Python `type(x) == int` (false for booleans). -/
def pyIsInt : PyVal → Bool
  | PyVal.pint _ => true
  | _ => false

/-- Python `type(x) == bool`. -/
def pyIsBool : PyVal → Bool
  | PyVal.pbool _ => true
  | _ => false

/-- The validation condition of `getValidatedRTLpkts` (`common_utils.py`
lines 107-116), in the source's shape and order. -/
def rtlPktValid (name path v ts unit datatype rtl_id secret : PyVal) : Bool :=
  (pyIsStr name && decide (0 < (pyStrVal name).length)
      && decide ((pyStrVal name).length ≤ 100)) &&
  (pyIsStr path && decide ((pyStrVal path).length ≤ 1000)
      && pathRegexMatch (pyStrVal path)) &&
  ((pyIsFloat v && (datatype == PyVal.pstr "double")) ||
    (pyIsInt v && (datatype == PyVal.pstr "long")) ||
    (pyIsBool v && (datatype == PyVal.pstr "boolean"))) &&
  pyIsInt ts &&
  (pyIsStr unit && decide ((pyStrVal unit).length ≤ 10)) &&
  (pyIsStr datatype && ((datatype == PyVal.pstr "double")
      || (datatype == PyVal.pstr "long") || (datatype == PyVal.pstr "boolean"))) &&
  pyIsInt rtl_id &&
  pyIsBool secret

/-- The loop body of `getValidatedRTLpkts`: one line is parsed (`none` =
`json.loads` raised), its fields are read (`KeyError` on a missing required
key is caught and drops the line), `secret` defaults to `False`, and a line
passing validation is appended to the accumulator. -/
def validateStep (validated_data : List JObj) (pkt : Option JObj) : List JObj :=
  match pkt with
  | none => validated_data
  | some data =>
    match data.name, data.path, data.v, data.ts, data.unit, data.datatype, data.id with
    | some name, some path, some v, some ts, some unit, some datatype, some rtl_id =>
      let secret := data.secret.getD (PyVal.pbool false)
      if rtlPktValid name path v ts unit datatype rtl_id secret then
        validated_data ++ [data]
      else
        validated_data
    | _, _, _, _, _, _, _ => validated_data

/-- `getValidatedRTLpkts` (`common_utils.py` lines 91-125) over the parsed
lines of one datagram. -/
def getValidatedRTLpkts (rtl_pkt_rows : List (Option JObj)) : List JObj :=
  rtl_pkt_rows.foldl validateStep []

/-! ### The §3 table, modelled from the spec, clause by clause -/

/-- Modelled from the spec: name is a string of 1..100 chars. -/
def specNameOk : Option PyVal → Bool
  | some (PyVal.pstr s) => decide (0 < s.length) && decide (s.length ≤ 100)
  | _ => false

/-- Modelled from the spec: path is a string of at most 1000 chars matching
the path pattern exactly. -/
def specPathOk : Option PyVal → Bool
  | some (PyVal.pstr s) => decide (s.length ≤ 1000) && specPathMatch s
  | _ => false

/-- The amended path clause: as `specPathOk`, but with Python's `$`
semantics, which also accepts a single trailing newline. -/
def amendedPathOk : Option PyVal → Bool
  | some (PyVal.pstr s) => decide (s.length ≤ 1000) && pathRegexMatch s
  | _ => false

/-- Modelled from the spec: the JSON type of `v` matches the declared
type. -/
def specValueTypeOk : Option PyVal → Option PyVal → Bool
  | some (PyVal.pstr s), some (PyVal.pfloat _) => s == "double"
  | some (PyVal.pstr s), some (PyVal.pint _) => s == "long"
  | some (PyVal.pstr s), some (PyVal.pbool _) => s == "boolean"
  | _, _ => false

/-- Modelled from the spec: the timestamp is an integer. -/
def specTsOk : Option PyVal → Bool
  | some (PyVal.pint _) => true
  | _ => false

/-- Modelled from the spec: the unit is a string of at most 10 chars. -/
def specUnitOk : Option PyVal → Bool
  | some (PyVal.pstr s) => decide (s.length ≤ 10)
  | _ => false

/-- Modelled from the spec: the declared type is one of double, long,
boolean. -/
def specTypeEnumOk : Option PyVal → Bool
  | some (PyVal.pstr s) => (s == "double") || (s == "long") || (s == "boolean")
  | _ => false

/-- Modelled from the spec: the id is an integer. -/
def specIdOk : Option PyVal → Bool
  | some (PyVal.pint _) => true
  | _ => false

/-- Modelled from the spec: secret is a boolean, defaulting to false when
absent. -/
def specSecretOk : Option PyVal → Bool
  | none => true
  | some (PyVal.pbool _) => true
  | _ => false

/-- Modelled from the spec: the full §3 table of the claim, with the path
matched exactly. -/
def specTableOk (o : JObj) : Bool :=
  specNameOk o.name &&
  specPathOk o.path &&
  specValueTypeOk o.datatype o.v &&
  specTsOk o.ts &&
  specUnitOk o.unit &&
  specTypeEnumOk o.datatype &&
  specIdOk o.id &&
  specSecretOk o.secret

/-- The amended table: the §3 table with the path clause weakened to
Python's `$` semantics (one trailing newline allowed). -/
def amendedTableOk (o : JObj) : Bool :=
  specNameOk o.name &&
  amendedPathOk o.path &&
  specValueTypeOk o.datatype o.v &&
  specTsOk o.ts &&
  specUnitOk o.unit &&
  specTypeEnumOk o.datatype &&
  specIdOk o.id &&
  specSecretOk o.secret

/-! ### The validation condition coincides with the (amended) table -/

theorem pstr_beq_pstr (s t : String) : (PyVal.pstr s == PyVal.pstr t) = (s == t) := by
  rw [Bool.eq_iff_iff]
  simp

theorem nameClause_eq (name : PyVal) :
    (pyIsStr name && decide (0 < (pyStrVal name).length)
        && decide ((pyStrVal name).length ≤ 100))
      = specNameOk (some name) := by
  cases name <;> rfl

theorem pathClause_eq (path : PyVal) :
    (pyIsStr path && decide ((pyStrVal path).length ≤ 1000)
        && pathRegexMatch (pyStrVal path))
      = amendedPathOk (some path) := by
  cases path <;> rfl

theorem valueTypeClause_eq (datatype v : PyVal) :
    ((pyIsFloat v && (datatype == PyVal.pstr "double")) ||
      (pyIsInt v && (datatype == PyVal.pstr "long")) ||
      (pyIsBool v && (datatype == PyVal.pstr "boolean")))
      = specValueTypeOk (some datatype) (some v) := by
  cases datatype <;> cases v <;> simp [pyIsFloat, pyIsInt, pyIsBool, specValueTypeOk]

theorem tsClause_eq (ts : PyVal) : pyIsInt ts = specTsOk (some ts) := by
  cases ts <;> rfl

theorem unitClause_eq (unit : PyVal) :
    (pyIsStr unit && decide ((pyStrVal unit).length ≤ 10)) = specUnitOk (some unit) := by
  cases unit <;> rfl

theorem typeEnumClause_eq (datatype : PyVal) :
    (pyIsStr datatype && ((datatype == PyVal.pstr "double")
        || (datatype == PyVal.pstr "long") || (datatype == PyVal.pstr "boolean")))
      = specTypeEnumOk (some datatype) := by
  cases datatype <;> simp [pyIsStr, specTypeEnumOk, pstr_beq_pstr]

theorem idClause_eq (rtl_id : PyVal) : pyIsInt rtl_id = specIdOk (some rtl_id) := by
  cases rtl_id <;> rfl

theorem secretClause_eq (secret : Option PyVal) :
    pyIsBool (secret.getD (PyVal.pbool false)) = specSecretOk secret := by
  cases secret with
  | none => rfl
  | some val => cases val <;> rfl

theorem rtlPktValid_eq_amended (o : JObj) (name path v ts unit datatype rtl_id : PyVal)
    (hn : o.name = some name) (hp : o.path = some path) (hv : o.v = some v)
    (hts : o.ts = some ts) (hu : o.unit = some unit) (hd : o.datatype = some datatype)
    (hid : o.id = some rtl_id) :
    rtlPktValid name path v ts unit datatype rtl_id (o.secret.getD (PyVal.pbool false))
      = amendedTableOk o := by
  unfold rtlPktValid amendedTableOk
  rw [hn, hp, hv, hts, hu, hd, hid]
  rw [nameClause_eq, pathClause_eq, valueTypeClause_eq, tsClause_eq, unitClause_eq,
    typeEnumClause_eq, idClause_eq, secretClause_eq]

/-! ### The per-line behaviour of the validator loop body -/

theorem validateStep_none (acc : List JObj) : validateStep acc none = acc := rfl

theorem validateStep_some (acc : List JObj) (o : JObj) :
    validateStep acc (some o)
      = acc ++ (if amendedTableOk o then [o] else []) := by
  rcases hn : o.name with _ | name
  · simp [validateStep, amendedTableOk, hn, specNameOk]
  rcases hp : o.path with _ | path
  · simp [validateStep, amendedTableOk, hn, hp, amendedPathOk]
  rcases hv : o.v with _ | v
  · simp [validateStep, amendedTableOk, hn, hp, hv, specValueTypeOk]
  rcases hts : o.ts with _ | ts
  · simp [validateStep, amendedTableOk, hn, hp, hv, hts, specTsOk]
  rcases hu : o.unit with _ | unit
  · simp [validateStep, amendedTableOk, hn, hp, hv, hts, hu, specUnitOk]
  rcases hd : o.datatype with _ | datatype
  · simp [validateStep, amendedTableOk, hn, hp, hv, hts, hu, hd, specValueTypeOk]
  rcases hid : o.id with _ | rtl_id
  · simp [validateStep, amendedTableOk, hn, hp, hv, hts, hu, hd, hid, specIdOk]
  unfold validateStep
  dsimp only
  rw [hn, hp, hv, hts, hu, hd, hid]
  dsimp only
  rw [rtlPktValid_eq_amended o name path v ts unit datatype rtl_id hn hp hv hts hu hd hid]
  by_cases hS : amendedTableOk o = true
  · rw [if_pos hS, if_pos hS]
  · rw [if_neg hS, if_neg hS]
    simp

theorem getValidated_foldl (rows : List (Option JObj)) :
    ∀ acc : List JObj,
      rows.foldl validateStep acc
        = acc ++ rows.filterMap (fun pkt => pkt.bind (fun o =>
            if amendedTableOk o then some o else none)) := by
  induction rows with
  | nil =>
    intro acc
    simp
  | cons x rows ih =>
    intro acc
    rw [List.foldl_cons, List.filterMap_cons]
    rcases x with _ | o
    · rw [validateStep_none]
      simp only [Option.none_bind]
      exact ih acc
    · rw [validateStep_some]
      simp only [Option.some_bind]
      by_cases hS : amendedTableOk o = true
      · rw [if_pos hS, if_pos hS, ih (acc ++ [o])]
        simp
      · rw [if_neg hS, if_neg hS, List.append_nil, ih acc]

/-- C2 (amended): `getValidatedRTLpkts` returns, in input order, exactly the
parsed line objects that satisfy the §3 table, with the path clause read
with Python's `$` anchor semantics (one trailing newline allowed); a
malformed or invalid line is dropped without affecting the validation of
the other lines of the same datagram. -/
theorem getValidatedRTLpkts_filter (rtl_pkt_rows : List (Option JObj)) :
    getValidatedRTLpkts rtl_pkt_rows
      = rtl_pkt_rows.filterMap (fun pkt => pkt.bind (fun o =>
          if amendedTableOk o then some o else none)) := by
  unfold getValidatedRTLpkts
  rw [getValidated_foldl rtl_pkt_rows []]
  rfl

/-- The parsed object of the JSON line
`{"name":"n","path":"/a\n","v":1.5,"ts":0,"unit":"u","type":"double","id":1,"secret":false}`
(the path carries an escaped newline). -/
def pathNewlineObj : JObj :=
  { name := some (PyVal.pstr "n"), path := some (PyVal.pstr "/a\n"),
    v := some (PyVal.pfloat 1), ts := some (PyVal.pint 0),
    unit := some (PyVal.pstr "u"), datatype := some (PyVal.pstr "double"),
    id := some (PyVal.pint 1), secret := some (PyVal.pbool false) }

/-- C2 counterexample: the validator accepts a line whose path is
`"/a\n"` — `re.match`'s `$` also matches just before a trailing newline —
although that path does not match the §3 pattern `(/[A-Za-z0-9]+){1..10}`;
so "exactly those satisfying the §3 table" fails as stated. -/
theorem getValidatedRTLpkts_path_counterexample :
    getValidatedRTLpkts [some pathNewlineObj] = [pathNewlineObj] ∧
    specTableOk pathNewlineObj = false ∧
    pathRegexMatch "/a\n" = true ∧ specPathMatch "/a\n" = false ∧
    specPathMatch "/a" = true := by
  refine ⟨by decide, by decide, by decide, by decide, by decide⟩

/-! ## Uploader boundary and cycling (`procem_rtl.py` lines 432-463, 575-587,
604-630)

Records on the internal queues are modelled as typed records: validated
records carry all eight fields (`id` present), records re-enqueued by the
cycling protocol carry only the six IoT-Ticket fields (`id` absent,
`secret` absent — `dict.get("secret", False)` then yields false, modelled
as `secret := false`). -/

/-- A measurement record on the router's internal queues. -/
structure PRecord where
  name : String
  path : String
  v : PyVal
  ts : Int
  unit : String
  datatype : String
  id : Option Int
  secret : Bool
deriving DecidableEq, Repr

/-- An IoT-Ticket item as built at `procem_rtl.py` lines 441-460: `id` and
`secret` are dropped; `unit` and `type` are always included (lines
459-460). -/
structure IotItem where
  name : String
  path : String
  v : PyVal
  ts : Int
  unit : String
  datatype : String
deriving DecidableEq, Repr

/-- The dict a cycled `IotItem` presents when it reaches
`procemUDPtoIOTTicketList` again: no `id`, no `secret` key. -/
def recOfIotItem (it : IotItem) : PRecord :=
  { name := it.name, path := it.path, v := it.v, ts := it.ts, unit := it.unit,
    datatype := it.datatype, id := none, secret := false }

/-- The loop body of `procemUDPtoIOTTicketList` (`procem_rtl.py` lines
435-462): skip confidential or over-cycled items; otherwise build the
IoT-Ticket item, record a first-seen id in `data_info`, and append. -/
def uploadStep (maxCycles : Nat) (acc : List (IotItem × Nat) × List Int)
    (item : PRecord × Nat) : List (IotItem × Nat) × List Int :=
  let jsonitem := item.1
  let cycle_number := item.2
  if jsonitem.secret || decide (cycle_number > maxCycles) then acc
  else
    let iot_item : IotItem :=
      { name := jsonitem.name, path := jsonitem.path, v := jsonitem.v,
        ts := jsonitem.ts, unit := jsonitem.unit, datatype := jsonitem.datatype }
    let info2 :=
      match jsonitem.id with
      | some rtl_id => if rtl_id ∈ acc.2 then acc.2 else acc.2 ++ [rtl_id]
      | none => acc.2
    (acc.1 ++ [(iot_item, cycle_number)], info2)

/-- `procemUDPtoIOTTicketList` (`procem_rtl.py` lines 432-463).  `udpdata`
is the `(jsonitem, cycle_number)` list of one queue item, `data_info` the
shared set of already-seen ids (modelled as a deduplicated list),
`maxCycles` the global `IOTTICKET_MAX_DATA_CYCLES` (default 5).  Returns
the produced buffer and the updated `data_info`.  This function is the only
way records enter an uploader buffer (line 382), and the buffers are what
the writer threads transmit. -/
def procemUDPtoIOTTicketList (maxCycles : Nat) (udpdata : List (PRecord × Nat))
    (data_info : List Int) : List (IotItem × Nat) × List Int :=
  udpdata.foldl (uploadStep maxCycles) ([], data_info)

/-- The rows the CSV worker's inner loop (`procem_rtl.py` lines 305-319)
emits for one batch: one `(id, value, timestamp)` triple per record whose
three fields are present.  Validated records always carry them; the
`is not None` guard skips a record without them.  `secret` is not
consulted. -/
def csvRowsOfBatch (items : List PRecord) : List (Int × PyVal × Int) :=
  items.filterMap (fun item =>
    match item.id with
    | some number => some (number, item.v, item.ts)
    | none => none)

/-- `IOTTICKET_CYCLE_BUFFER_SIZE` from `procem_rtl.py` line 71 (not
configurable). -/
def IOTTICKET_CYCLE_BUFFER_SIZE : Nat := 10

/-- The loop body of `putItemsToQueue` (`procem_rtl.py` lines 615-625).
State: the queue items already put, the current `item_buffer`, and
`item_count`. -/
def putItemsStep (buffer_size cycle_limit : Nat)
    (st : List (List (IotItem × Nat)) × List (IotItem × Nat) × Nat)
    (item : IotItem × Nat) : List (List (IotItem × Nat)) × List (IotItem × Nat) × Nat :=
  if decide (item.2 > cycle_limit) then st
  else
    let item_buffer2 := st.2.1 ++ [(item.1, item.2 + 1)]
    if decide (item_buffer2.length ≥ buffer_size) then
      (st.1 ++ [item_buffer2], [], st.2.2 + 1)
    else
      (st.1, item_buffer2, st.2.2 + 1)

/-- `putItemsToQueue` (`procem_rtl.py` lines 604-630): re-enqueue the items
whose cycle count is within `cycle_limit`, each with its cycle count
incremented, grouped into queue items of at most `buffer_size` records; the
last partial group is flushed at the end.  Returns the queue items put, in
order, and the reported count of re-enqueued records. -/
def putItemsToQueue (item_list : List (IotItem × Nat)) (buffer_size : Nat)
    (cycle_limit : Nat) : List (List (IotItem × Nat)) × Nat :=
  let r := item_list.foldl (putItemsStep buffer_size cycle_limit) ([], [], 0)
  if 0 < r.2.1.length then (r.1 ++ [r.2.1], r.2.2) else (r.1, r.2.2)

/-- `cycleBadPackets` (`procem_rtl.py` lines 575-587): for each packet index
still considered bad, slice the corresponding chunk
`item_buffer[index*P:(index+1)*P]` and re-enqueue it through
`putItemsToQueue`.  `bad_packets` is a Python set; the model takes its
iteration order as a list. -/
def cycleBadPackets (item_buffer : List (IotItem × Nat)) (bad_packets : List Nat)
    (packet_size buffer_size cycle_limit : Nat) :
    List (List (IotItem × Nat)) × Nat :=
  bad_packets.foldl
    (fun st index =>
      let bad_list := (item_buffer.drop (index * packet_size)).take packet_size
      let r := putItemsToQueue bad_list buffer_size cycle_limit
      (st.1 ++ r.1, st.2 + r.2))
    ([], 0)

/-! ### The uploader-boundary skip and the day-log row -/

theorem uploadStep_skip (maxCycles : Nat) (acc : List (IotItem × Nat) × List Int)
    (rec : PRecord) (c : Nat) (h : rec.secret = true ∨ c > maxCycles) :
    uploadStep maxCycles acc (rec, c) = acc := by
  rcases h with h | h <;> simp [uploadStep, h]

theorem procemUDPtoIOTTicketList_skip (maxCycles : Nat)
    (pre post : List (PRecord × Nat)) (rec : PRecord) (c : Nat) (info : List Int)
    (h : rec.secret = true ∨ c > maxCycles) :
    procemUDPtoIOTTicketList maxCycles (pre ++ (rec, c) :: post) info
      = procemUDPtoIOTTicketList maxCycles (pre ++ post) info := by
  unfold procemUDPtoIOTTicketList
  rw [List.foldl_append, List.foldl_append, List.foldl_cons,
    uploadStep_skip maxCycles _ rec c h]

/-- C1: a validated record with `secret = true` contributes nothing to
`procemUDPtoIOTTicketList` — the only path into an uploader buffer, hence
to the cloud — while the CSV day-log worker still derives its
`(id, value, timestamp)` row from it, exactly as it would from the same
record with `secret = false`. -/
theorem secret_not_uploaded_but_logged (maxCycles : Nat)
    (pre post : List (PRecord × Nat)) (r : PRecord) (c : Nat) (info : List Int)
    (pre2 post2 : List PRecord) (rid : Int)
    (hsecret : r.secret = true) (hid : r.id = some rid) :
    procemUDPtoIOTTicketList maxCycles (pre ++ (r, c) :: post) info
      = procemUDPtoIOTTicketList maxCycles (pre ++ post) info ∧
    csvRowsOfBatch (pre2 ++ r :: post2)
      = csvRowsOfBatch pre2 ++ (rid, r.v, r.ts) :: csvRowsOfBatch post2 ∧
    csvRowsOfBatch (pre2 ++ r :: post2)
      = csvRowsOfBatch (pre2 ++ { r with secret := false } :: post2) := by
  refine ⟨procemUDPtoIOTTicketList_skip maxCycles pre post r c info (Or.inl hsecret),
    ?_, ?_⟩
  · simp [csvRowsOfBatch, List.filterMap_append, List.filterMap_cons, hid]
  · simp [csvRowsOfBatch, List.filterMap_append, List.filterMap_cons, hid]

/-- A concrete secret record for the witness. -/
def secretRec : PRecord :=
  { name := "n", path := "/a", v := PyVal.pint 1, ts := 10, unit := "u",
    datatype := "long", id := some 1, secret := true }

/-- Witness for `secret_not_uploaded_but_logged` at a one-record datagram. -/
theorem secret_not_uploaded_but_logged_witness :
    procemUDPtoIOTTicketList 5 ([] ++ (secretRec, 0) :: []) []
      = procemUDPtoIOTTicketList 5 ([] ++ []) [] ∧
    csvRowsOfBatch ([] ++ secretRec :: [])
      = csvRowsOfBatch [] ++ (1, secretRec.v, secretRec.ts) :: csvRowsOfBatch [] ∧
    csvRowsOfBatch ([] ++ secretRec :: [])
      = csvRowsOfBatch ([] ++ { secretRec with secret := false } :: []) :=
  secret_not_uploaded_but_logged 5 [] [] secretRec 0 [] [] [] 1 rfl rfl

/-! ### The cycling protocol -/

theorem flatten_bind {α β : Type} (idxs : List α) (f : α → List (List β)) :
    (idxs.bind f).flatten = idxs.bind (fun i => (f i).flatten) := by
  induction idxs with
  | nil => rfl
  | cons i idxs ih => simp [ih]

theorem putItems_go (B C : Nat) (hB : 1 ≤ B) :
    ∀ (L : List (IotItem × Nat)) (queued : List (List (IotItem × Nat)))
      (buf : List (IotItem × Nat)) (cnt : Nat),
      (∀ g ∈ queued, 0 < g.length ∧ g.length ≤ B) → buf.length < B →
      ((L.foldl (putItemsStep B C) (queued, buf, cnt)).1.flatten
          ++ (L.foldl (putItemsStep B C) (queued, buf, cnt)).2.1
        = queued.flatten ++ buf
          ++ (L.filter (fun p => decide (p.2 ≤ C))).map (fun p => (p.1, p.2 + 1))) ∧
      ((L.foldl (putItemsStep B C) (queued, buf, cnt)).2.2
        = cnt + (L.filter (fun p => decide (p.2 ≤ C))).length) ∧
      (∀ g ∈ (L.foldl (putItemsStep B C) (queued, buf, cnt)).1,
        0 < g.length ∧ g.length ≤ B) ∧
      (L.foldl (putItemsStep B C) (queued, buf, cnt)).2.1.length < B := by
  intro L
  induction L with
  | nil =>
    intro queued buf cnt hq hb
    refine ⟨by simp, by simp, hq, hb⟩
  | cons item L ih =>
    intro queued buf cnt hq hb
    rw [List.foldl_cons]
    by_cases hc : item.2 > C
    · have hstep : putItemsStep B C (queued, buf, cnt) item = (queued, buf, cnt) := by
        simp [putItemsStep, hc]
      have hfil : (decide (item.2 ≤ C)) = false := decide_eq_false (by omega)
      rw [hstep]
      obtain ⟨h1, h2, h3, h4⟩ := ih queued buf cnt hq hb
      refine ⟨?_, ?_, h3, h4⟩
      · rw [h1]
        simp [List.filter_cons, hfil]
      · rw [h2]
        simp [List.filter_cons, hfil]
    · have hfil : (decide (item.2 ≤ C)) = true := decide_eq_true (by omega)
      by_cases hflush : (buf ++ [(item.1, item.2 + 1)]).length ≥ B
      · simp only [List.length_append, List.length_cons, List.length_nil] at hflush
        have hstep : putItemsStep B C (queued, buf, cnt) item
            = (queued ++ [buf ++ [(item.1, item.2 + 1)]], [], cnt + 1) := by
          simp only [putItemsStep, List.length_append, List.length_cons, List.length_nil,
            decide_eq_true_eq]
          rw [if_neg hc, if_pos (by omega)]
        rw [hstep]
        have hq2 : ∀ g ∈ queued ++ [buf ++ [(item.1, item.2 + 1)]],
            0 < g.length ∧ g.length ≤ B := by
          intro g hg
          rcases List.mem_append.mp hg with hg | hg
          · exact hq g hg
          · rcases List.mem_singleton.mp hg with rfl
            constructor
            · simp
            · simp only [List.length_append, List.length_cons, List.length_nil]
              omega
        obtain ⟨h1, h2, h3, h4⟩ := ih (queued ++ [buf ++ [(item.1, item.2 + 1)]]) []
          (cnt + 1) hq2 (by simp only [List.length_nil]; omega)
        refine ⟨?_, ?_, h3, h4⟩
        · rw [h1]
          simp [List.filter_cons, hfil, List.flatten_append]
        · rw [h2]
          simp [List.filter_cons, hfil]
          omega
      · simp only [List.length_append, List.length_cons, List.length_nil] at hflush
        have hstep : putItemsStep B C (queued, buf, cnt) item
            = (queued, buf ++ [(item.1, item.2 + 1)], cnt + 1) := by
          simp only [putItemsStep, List.length_append, List.length_cons, List.length_nil,
            decide_eq_true_eq]
          rw [if_neg hc, if_neg (by omega)]
        rw [hstep]
        obtain ⟨h1, h2, h3, h4⟩ := ih queued (buf ++ [(item.1, item.2 + 1)]) (cnt + 1)
          hq (by simp only [List.length_append, List.length_cons, List.length_nil]; omega)
        refine ⟨?_, ?_, h3, h4⟩
        · rw [h1]
          simp [List.filter_cons, hfil]
        · rw [h2]
          simp [List.filter_cons, hfil]
          omega

theorem putItemsToQueue_characterization (L : List (IotItem × Nat)) (B C : Nat)
    (hB : 1 ≤ B) :
    (putItemsToQueue L B C).1.flatten
        = (L.filter (fun p => decide (p.2 ≤ C))).map (fun p => (p.1, p.2 + 1)) ∧
    (putItemsToQueue L B C).2 = (L.filter (fun p => decide (p.2 ≤ C))).length ∧
    (∀ g ∈ (putItemsToQueue L B C).1, 0 < g.length ∧ g.length ≤ B) := by
  obtain ⟨h1, h2, h3, h4⟩ := putItems_go B C hB L [] [] 0 (by simp)
    (by simp only [List.length_nil]; omega)
  unfold putItemsToQueue
  dsimp only
  split
  · rename_i hpos
    dsimp only
    refine ⟨?_, by simpa using h2, ?_⟩
    · rw [List.flatten_append]
      simpa using h1
    · intro g hg
      rcases List.mem_append.mp hg with hg | hg
      · exact h3 g hg
      · rcases List.mem_singleton.mp hg with rfl
        exact ⟨hpos, by omega⟩
  · rename_i hpos
    dsimp only
    have hempty : (L.foldl (putItemsStep B C) ([], [], 0)).2.1 = [] := by
      rcases hfe : (L.foldl (putItemsStep B C) ([], [], 0)).2.1 with _ | ⟨x, xs⟩
      · rfl
      · exfalso
        apply hpos
        rw [hfe]
        simp
    refine ⟨?_, by simpa using h2, h3⟩
    rw [hempty] at h1
    simpa using h1

/-- C8: when a writer thread gives up, `putItemsToQueue` re-enqueues, in
order and exactly once, every record of a bad chunk whose cycle count `c`
satisfies `c ≤ C`, with cycle count `c + 1`, grouped into queue items of at
most `B` records (the cycle buffer size, the constant 10), and reports the
count; records with `c > C` are dropped and never re-enqueued.
`cycleBadPackets` does this for the `packet_size`-chunk of every bad packet
index.  Any record with cycle count above `C` is also skipped by
`procemUDPtoIOTTicketList`, so a later worker never transmits it. -/
theorem cycling_spec (B C : Nat) (hB : 1 ≤ B) :
    (∀ L : List (IotItem × Nat),
      (putItemsToQueue L B C).1.flatten
          = (L.filter (fun p => decide (p.2 ≤ C))).map (fun p => (p.1, p.2 + 1)) ∧
      (putItemsToQueue L B C).2 = (L.filter (fun p => decide (p.2 ≤ C))).length ∧
      (∀ g ∈ (putItemsToQueue L B C).1, 0 < g.length ∧ g.length ≤ B)) ∧
    (∀ (item_buffer : List (IotItem × Nat)) (bad_packets : List Nat) (P : Nat),
      (cycleBadPackets item_buffer bad_packets P B C).1.flatten
          = bad_packets.bind (fun i =>
              ((((item_buffer.drop (i * P)).take P).filter
                  (fun p => decide (p.2 ≤ C))).map (fun p => (p.1, p.2 + 1)))) ∧
      (cycleBadPackets item_buffer bad_packets P B C).2
          = (bad_packets.map (fun i =>
              (((item_buffer.drop (i * P)).take P).filter
                  (fun p => decide (p.2 ≤ C))).length)).sum) ∧
    (∀ (it : IotItem) (c : Nat) (pre post : List (PRecord × Nat)) (info : List Int),
      c > C →
      procemUDPtoIOTTicketList C (pre ++ (recOfIotItem it, c) :: post) info
        = procemUDPtoIOTTicketList C (pre ++ post) info) := by
  refine ⟨fun L => putItemsToQueue_characterization L B C hB, ?_, ?_⟩
  · intro item_buffer bad_packets P
    have hgo : ∀ (idxs : List Nat) (accQ : List (List (IotItem × Nat))) (accN : Nat),
        (idxs.foldl (fun st index =>
            (st.1 ++ (putItemsToQueue
                ((item_buffer.drop (index * P)).take P) B C).1,
              st.2 + (putItemsToQueue
                ((item_buffer.drop (index * P)).take P) B C).2)) (accQ, accN))
          = (accQ ++ idxs.bind (fun i =>
              (putItemsToQueue ((item_buffer.drop (i * P)).take P) B C).1),
            accN + (idxs.map (fun i =>
              (putItemsToQueue ((item_buffer.drop (i * P)).take P) B C).2)).sum) := by
      intro idxs
      induction idxs with
      | nil =>
        intro accQ accN
        simp
      | cons i idxs ih =>
        intro accQ accN
        rw [List.foldl_cons, ih]
        simp [List.append_assoc]
        omega
    have hjoin : ∀ i ∈ bad_packets,
        (putItemsToQueue ((item_buffer.drop (i * P)).take P) B C).1.flatten
          = (((item_buffer.drop (i * P)).take P).filter
              (fun p => decide (p.2 ≤ C))).map (fun p => (p.1, p.2 + 1)) :=
      fun i _ => (putItemsToQueue_characterization _ B C hB).1
    have hcnt : ∀ i ∈ bad_packets,
        (putItemsToQueue ((item_buffer.drop (i * P)).take P) B C).2
          = (((item_buffer.drop (i * P)).take P).filter
              (fun p => decide (p.2 ≤ C))).length :=
      fun i _ => (putItemsToQueue_characterization _ B C hB).2.1
    constructor
    · unfold cycleBadPackets
      rw [hgo bad_packets [] 0]
      dsimp only
      rw [List.nil_append, flatten_bind]
      exact List.bind_congr hjoin
    · unfold cycleBadPackets
      rw [hgo bad_packets [] 0]
      dsimp only
      rw [Nat.zero_add]
      exact congrArg List.sum (List.map_congr_left hcnt)
  · intro it c pre post info hc
    exact procemUDPtoIOTTicketList_skip C pre post (recOfIotItem it) c info (Or.inr hc)

/-- A concrete IoT-Ticket item for the cycling witness. -/
def cycItem : IotItem :=
  { name := "n", path := "/a", v := PyVal.pint 1, ts := 10, unit := "u",
    datatype := "long" }

/-- Witness for `cycling_spec` at the default cycle-buffer size 10 and
`C_max = 5`, on a two-record chunk of which one is over-cycled. -/
theorem cycling_spec_witness :
    (putItemsToQueue [(cycItem, 0), (cycItem, 6)] 10 5).1.flatten
        = ([(cycItem, 0), (cycItem, 6)].filter (fun p => decide (p.2 ≤ 5))).map
            (fun p => (p.1, p.2 + 1)) ∧
    (putItemsToQueue [(cycItem, 0), (cycItem, 6)] 10 5).2
        = ([(cycItem, 0), (cycItem, 6)].filter (fun p => decide (p.2 ≤ 5))).length ∧
    (∀ g ∈ (putItemsToQueue [(cycItem, 0), (cycItem, 6)] 10 5).1,
      0 < g.length ∧ g.length ≤ 10) :=
  (cycling_spec 10 5 (by norm_num)).1 [(cycItem, 0), (cycItem, 6)]

/-! ### The CSV log worker

`procemCSVLogWorker` (`procem_rtl.py` lines 274-337) pops batches from the
database queue, writes one tab-separated `(id, value, timestamp)` row per
record to the current day's CSV file, counts the rows per id in the dict
`data_counter`, and on a local-date change closes the old file, flushes the
old day's counter file through `writeDataCounterToFile` (lines 340-348),
resets the counter and opens the new day's file.  Files are modelled by the
row sequences appended to them; the local date observed at the check on
line 295 is attached to each batch. -/

/-- One Python `data_counter[number] = data_counter.get(number, 0) + 1`
(`procem_rtl.py` line 313).  A Python dict keeps insertion order and
updates a present key in place, modelled on an association list. -/
def counterIncrement (dc : List (Int × Nat)) (n : Int) : List (Int × Nat) :=
  if dc.any (fun p => p.1 == n) then
    dc.map (fun p => if p.1 == n then (p.1, p.2 + 1) else p)
  else dc ++ [(n, 1)]

/-- Python's `data_counter.get(number, 0)` (also `data_counter[number]` on
a present key, since the keys are unique). -/
def ctrGet (dc : List (Int × Nat)) (n : Int) : Nat :=
  (dc.lookup n).getD 0

/-- The data counter obtained from the given row sequence: exactly the
counter updates the worker performs while writing those rows. -/
def countsOf (rows : List (Int × PyVal × Int)) : List (Int × Nat) :=
  rows.foldl (fun dc r => counterIncrement dc r.1) []

/-- `writeDataCounterToFile` (`procem_rtl.py` lines 340-348): one
`(id, count)` row per counter key, keys in ascending order
(`for number in sorted(data_counter)`). -/
def counterRows (dc : List (Int × Nat)) : List (Int × Nat) :=
  ((dc.map Prod.fst).mergeSort (fun a b => decide (a ≤ b))).map
    (fun n => (n, ctrGet dc n))

/-- The CSV worker's state between queue items: the date of the open log
file, the rows appended so far to each day's log file and to each day's
counter file, the in-memory `data_counter`, and the total `item_count`. -/
structure CsvState where
  day : String
  dayLogs : String → List (Int × PyVal × Int)
  counterFiles : String → List (Int × Nat)
  data_counter : List (Int × Nat)
  item_count : Nat

/-- The worker's initial state (`procem_rtl.py` lines 283-286): the log
file for the start date is opened in append mode (no rows written yet)
and the counter is empty. -/
def csvInit (d0 : String) : CsvState :=
  { day := d0, dayLogs := fun _ => [], counterFiles := fun _ => [],
    data_counter := [], item_count := 0 }

/-- One iteration of the worker loop (`procem_rtl.py` lines 289-333) on a
batch, where `batch.1` is the local date observed at line 295: on a date
change the old log is closed, the old day's counter file is appended via
`writeDataCounterToFile`, the counter is reset and the new day's log is
opened; then the batch's rows update the counter and are appended to the
open log. -/
def csvStep (st : CsvState) (batch : String × List PRecord) : CsvState :=
  let today := batch.1
  let st1 : CsvState :=
    if st.day ≠ today then
      { st with
        counterFiles := fun f =>
          if f = st.day then st.counterFiles f ++ counterRows st.data_counter
          else st.counterFiles f,
        day := today,
        data_counter := [] }
    else st
  let rows := csvRowsOfBatch batch.2
  { st1 with
    data_counter := rows.foldl (fun dc r => counterIncrement dc r.1) st1.data_counter,
    dayLogs := fun f =>
      if f = st1.day then st1.dayLogs f ++ rows else st1.dayLogs f,
    item_count := st1.item_count + rows.length }

/-- The shutdown path (`procem_rtl.py` lines 290-292 and 335-336): on a
`None` queue item the loop exits, the log is closed and the current day's
counter file is flushed. -/
def csvShutdown (st : CsvState) : CsvState :=
  { st with
    counterFiles := fun f =>
      if f = st.day then st.counterFiles f ++ counterRows st.data_counter
      else st.counterFiles f }

/-- The worker run over a batch sequence, each batch tagged with the local
date at which it is processed. -/
def csvRun (d0 : String) (batches : List (String × List PRecord)) : CsvState :=
  batches.foldl csvStep (csvInit d0)

/-- The local date of the open log file after processing `batches`. -/
def currentDay (d0 : String) (batches : List (String × List PRecord)) : String :=
  batches.foldl (fun _ b => b.1) d0

/-- The trailing batches processed since the last date change, i.e. since
the counter was last reset. -/
def epochBatches (d0 : String) (batches : List (String × List PRecord)) :
    List (String × List PRecord) :=
  (batches.reverse.takeWhile (fun b => b.1 == currentDay d0 batches)).reverse

/-- The CSV rows written since the counter was last reset. -/
def epochRows (d0 : String) (batches : List (String × List PRecord)) :
    List (Int × PyVal × Int) :=
  (epochBatches d0 batches).bind (fun b => csvRowsOfBatch b.2)

/-- Bumping the entries with key `n` leaves lookups of other keys
unchanged. -/
theorem lookup_bump_ne (dc : List (Int × Nat)) (n m : Int) (h : m ≠ n) :
    (dc.map (fun p => if p.1 == n then (p.1, p.2 + 1) else p)).lookup m
      = dc.lookup m := by
  induction dc with
  | nil => rfl
  | cons p dc ih =>
    simp only [List.map_cons]
    by_cases hp : (p.1 == n) = true
    · have hm2 : (m == p.1) = false := by
        simp only [beq_eq_false_iff_ne]
        exact fun e => h (e.trans (by simpa using hp))
      rw [if_pos hp]
      simp only [List.lookup, hm2]
      exact ih
    · rw [if_neg hp]
      simp only [List.lookup, ih]

/-- Bumping the entries with key `n` turns a present count `c` for `n`
into `c + 1`. -/
theorem lookup_bump_eq (dc : List (Int × Nat)) (n : Int) :
    (dc.map (fun p => if p.1 == n then (p.1, p.2 + 1) else p)).lookup n
      = (dc.lookup n).map (fun c => c + 1) := by
  induction dc with
  | nil => rfl
  | cons p dc ih =>
    simp only [List.map_cons]
    by_cases hp : (p.1 == n) = true
    · have hn2 : (n == p.1) = true := by
        simp only [beq_iff_eq]
        exact (show p.1 = n by simpa using hp).symm
      rw [if_pos hp]
      simp only [List.lookup, hn2, Option.map_some']
    · have hn2 : (n == p.1) = false := by
        simp only [beq_eq_false_iff_ne]
        exact fun e => hp (by simp [e.symm])
      rw [if_neg hp]
      simp only [List.lookup, hn2]
      exact ih

/-- A key of an entry of the list has a successful lookup. -/
theorem lookup_isSome_of_mem (dc : List (Int × Nat)) (p : Int × Nat)
    (hp : p ∈ dc) : ∃ c, dc.lookup p.1 = some c := by
  induction dc with
  | nil => cases hp
  | cons q dc ih =>
    by_cases hq : p.1 = q.1
    · exact ⟨q.2, by simp [List.lookup, hq]⟩
    · have hb : (p.1 == q.1) = false := by simp only [beq_eq_false_iff_ne]; exact hq
      rcases List.mem_cons.mp hp with rfl | hp2
      · exact absurd rfl hq
      · simpa [List.lookup, hb] using ih hp2

/-- A key held by no entry has a failing lookup. -/
theorem lookup_none_of_absent (dc : List (Int × Nat)) (m : Int)
    (habs : ∀ p ∈ dc, p.1 ≠ m) : dc.lookup m = none := by
  induction dc with
  | nil => rfl
  | cons q dc ih =>
    have hb : (m == q.1) = false := by
      simp only [beq_eq_false_iff_ne]
      exact fun e => habs q (List.mem_cons_self q dc) e.symm
    simp only [List.lookup, hb]
    exact ih fun p hp => habs p (List.mem_cons_of_mem q hp)

/-- Appending a fresh single entry does not change other keys' lookups. -/
theorem lookup_append_single_ne (dc : List (Int × Nat)) (n m : Int)
    (h : m ≠ n) : (dc ++ [(n, 1)]).lookup m = dc.lookup m := by
  induction dc with
  | nil =>
    have hb : (m == n) = false := by simp only [beq_eq_false_iff_ne]; exact h
    simp [List.lookup, hb]
  | cons q dc ih =>
    simp only [List.cons_append, List.lookup]
    cases hb : (m == q.1) with
    | true => rfl
    | false => exact ih

/-- Appending a fresh single entry for an absent key makes its lookup
succeed with the entry's count. -/
theorem lookup_append_single_eq (dc : List (Int × Nat)) (n : Int)
    (habs : dc.lookup n = none) : (dc ++ [(n, 1)]).lookup n = some 1 := by
  induction dc with
  | nil => simp [List.lookup]
  | cons q dc ih =>
    simp only [List.lookup] at habs
    cases hb : (n == q.1) with
    | false =>
      simp only [hb] at habs
      simp only [List.cons_append, List.lookup, hb]
      exact ih habs
    | true =>
      simp only [hb] at habs
      exact Option.noConfusion habs

/-- The counter update changes exactly the count of the incremented key,
by one. -/
theorem ctrGet_counterIncrement (dc : List (Int × Nat)) (n m : Int) :
    ctrGet (counterIncrement dc n) m
      = if m = n then ctrGet dc m + 1 else ctrGet dc m := by
  unfold counterIncrement ctrGet
  by_cases hany : (dc.any fun p => p.1 == n) = true
  · rw [if_pos hany]
    by_cases hm : m = n
    · subst hm
      rw [if_pos rfl, lookup_bump_eq]
      obtain ⟨p, hp, he⟩ := List.any_eq_true.mp hany
      obtain ⟨c, hc⟩ := lookup_isSome_of_mem dc p hp
      rw [show p.1 = m from by simpa using he] at hc
      rw [hc]; rfl
    · rw [if_neg hm, lookup_bump_ne dc n m hm]
  · rw [if_neg hany]
    have habs : ∀ p ∈ dc, p.1 ≠ n := by
      intro p hp hc
      exact hany (List.any_eq_true.mpr ⟨p, hp, by simpa using hc⟩)
    by_cases hm : m = n
    · subst hm
      rw [if_pos rfl, lookup_none_of_absent dc m habs,
        lookup_append_single_eq dc m (lookup_none_of_absent dc m habs)]
      rfl
    · rw [if_neg hm, lookup_append_single_ne dc n m hm]

/-- Counting a row sequence into a counter adds, per id, the number of
its rows with that id. -/
theorem foldl_counter_get (rows : List (Int × PyVal × Int))
    (dc : List (Int × Nat)) (n : Int) :
    ctrGet (rows.foldl (fun dc r => counterIncrement dc r.1) dc) n
      = ctrGet dc n + (rows.map (fun r => r.1)).count n := by
  induction rows generalizing dc with
  | nil => simp
  | cons r rows ih =>
    simp only [List.foldl_cons, List.map_cons]
    rw [ih, ctrGet_counterIncrement]
    by_cases hn : n = r.1
    · rw [if_pos hn, List.count_cons]
      simp only [hn, beq_self_eq_true, if_true]
      omega
    · have hb : (r.1 == n) = false := by
        simp only [beq_eq_false_iff_ne]; exact fun e => hn e.symm
      rw [if_neg hn, List.count_cons, hb]
      simp

/-- Bumping entries in place keeps the key list unchanged. -/
theorem bump_keys (dc : List (Int × Nat)) (n : Int) :
    (dc.map (fun p => if p.1 == n then (p.1, p.2 + 1) else p)).map Prod.fst
      = dc.map Prod.fst := by
  rw [List.map_map]
  apply List.map_congr_left
  intro p _
  by_cases hb : (p.1 == n) = true
  · rw [Function.comp_apply, if_pos hb]
  · rw [Function.comp_apply, if_neg hb]

/-- Membership in the counter's key list after one update. -/
theorem counterIncrement_keys_mem (dc : List (Int × Nat)) (n m : Int) :
    (m ∈ (counterIncrement dc n).map Prod.fst)
      ↔ m ∈ dc.map Prod.fst ∨ m = n := by
  unfold counterIncrement
  by_cases hany : (dc.any fun p => p.1 == n) = true
  · rw [if_pos hany, bump_keys]
    constructor
    · exact Or.inl
    · rintro (hm | rfl)
      · exact hm
      · obtain ⟨p, hp, he⟩ := List.any_eq_true.mp hany
        exact List.mem_map.mpr ⟨p, hp, by simpa using he⟩
  · rw [if_neg hany]
    simp [List.mem_append]

/-- One counter update keeps the keys unique. -/
theorem counterIncrement_keys_nodup (dc : List (Int × Nat)) (n : Int)
    (h : (dc.map Prod.fst).Nodup) :
    ((counterIncrement dc n).map Prod.fst).Nodup := by
  unfold counterIncrement
  by_cases hany : (dc.any fun p => p.1 == n) = true
  · rw [if_pos hany, bump_keys]; exact h
  · rw [if_neg hany, List.map_append]
    refine h.append (by simp) ?_
    intro a ha hb
    rw [List.map_singleton, List.mem_singleton] at hb
    subst hb
    obtain ⟨p, hp, he⟩ := List.mem_map.mp ha
    exact hany (List.any_eq_true.mpr ⟨p, hp, by simp [he]⟩)

/-- Keys stay unique along any counting fold. -/
theorem foldl_counter_nodup (rows : List (Int × PyVal × Int))
    (dc : List (Int × Nat)) (h : (dc.map Prod.fst).Nodup) :
    ((rows.foldl (fun dc r => counterIncrement dc r.1) dc).map Prod.fst).Nodup := by
  induction rows generalizing dc with
  | nil => exact h
  | cons r rows ih =>
    exact ih (counterIncrement dc r.1) (counterIncrement_keys_nodup dc r.1 h)

/-- Keys collected along any counting fold. -/
theorem foldl_counter_keys (rows : List (Int × PyVal × Int))
    (dc : List (Int × Nat)) (n : Int) :
    n ∈ (rows.foldl (fun dc r => counterIncrement dc r.1) dc).map Prod.fst
      ↔ n ∈ dc.map Prod.fst ∨ n ∈ rows.map (fun r => r.1) := by
  induction rows generalizing dc with
  | nil => simp
  | cons r rows ih =>
    simp only [List.foldl_cons, List.map_cons, List.mem_cons]
    rw [ih, counterIncrement_keys_mem]
    tauto

/-- The counter built from a row sequence holds, per id, exactly the
number of its rows. -/
theorem countsOf_get (rows : List (Int × PyVal × Int)) (n : Int) :
    ctrGet (countsOf rows) n = (rows.map (fun r => r.1)).count n := by
  have := foldl_counter_get rows [] n
  simpa [countsOf, ctrGet] using this

/-- The counter's keys are exactly the ids occurring in the rows. -/
theorem countsOf_keys (rows : List (Int × PyVal × Int)) (n : Int) :
    n ∈ (countsOf rows).map Prod.fst ↔ n ∈ rows.map (fun r => r.1) := by
  have := foldl_counter_keys rows [] n
  simpa [countsOf] using this

/-- The counter's keys are unique. -/
theorem countsOf_keys_nodup (rows : List (Int × PyVal × Int)) :
    ((countsOf rows).map Prod.fst).Nodup :=
  foldl_counter_nodup rows [] (by simp)

/-- Membership in the counter-file rows. -/
theorem counterRows_mem (dc : List (Int × Nat)) (p : Int × Nat) :
    p ∈ counterRows dc ↔ p.1 ∈ dc.map Prod.fst ∧ p.2 = ctrGet dc p.1 := by
  unfold counterRows
  rw [List.mem_map]
  constructor
  · rintro ⟨n, hn, rfl⟩
    exact ⟨(List.mergeSort_perm (dc.map Prod.fst) _).mem_iff.mp hn, rfl⟩
  · rintro ⟨h1, h2⟩
    refine ⟨p.1, (List.mergeSort_perm (dc.map Prod.fst) _).mem_iff.mpr h1, ?_⟩
    rw [← h2]

/-- The counter-file rows have strictly ascending ids. -/
theorem counterRows_sorted (dc : List (Int × Nat))
    (hnd : (dc.map Prod.fst).Nodup) :
    (counterRows dc).Pairwise (fun a b => a.1 < b.1) := by
  unfold counterRows
  rw [List.pairwise_map]
  have hperm := List.mergeSort_perm (dc.map Prod.fst) (fun a b => decide (a ≤ b))
  have hnd2 : ((dc.map Prod.fst).mergeSort (fun a b => decide (a ≤ b))).Pairwise
      (fun a b => a ≠ b) := hperm.symm.nodup hnd
  have hs := @List.sorted_mergeSort Int (fun a b => decide (a ≤ b))
    (fun a b c hab hbc => by
      simp only [decide_eq_true_eq] at hab hbc ⊢; exact le_trans hab hbc)
    (fun a b => by simp only [Bool.or_eq_true, decide_eq_true_eq]; exact le_total a b)
    (dc.map Prod.fst)
  exact (hs.and hnd2).imp (fun h => lt_of_le_of_ne (by simpa using h.1) h.2)

/-- A worker step on a batch dated like the open file: counter updated,
rows appended to the open day's log. -/
theorem csvStep_no_rollover (st : CsvState) (b : String × List PRecord)
    (h : st.day = b.1) :
    csvStep st b =
      { st with
        data_counter := (csvRowsOfBatch b.2).foldl
          (fun dc r => counterIncrement dc r.1) st.data_counter,
        dayLogs := fun f =>
          if f = st.day then st.dayLogs f ++ csvRowsOfBatch b.2
          else st.dayLogs f,
        item_count := st.item_count + (csvRowsOfBatch b.2).length } := by
  simp only [csvStep]
  rw [if_neg (not_ne_iff.mpr h)]

/-- A worker step on a batch dated differently from the open file: the
old day's counter file is flushed, the counter restarts from the batch's
rows, and the rows go to the new day's log. -/
theorem csvStep_rollover (st : CsvState) (b : String × List PRecord)
    (h : st.day ≠ b.1) :
    csvStep st b =
      { day := b.1,
        dayLogs := fun f =>
          if f = b.1 then st.dayLogs f ++ csvRowsOfBatch b.2
          else st.dayLogs f,
        counterFiles := fun f =>
          if f = st.day then st.counterFiles f ++ counterRows st.data_counter
          else st.counterFiles f,
        data_counter := countsOf (csvRowsOfBatch b.2),
        item_count := st.item_count + (csvRowsOfBatch b.2).length } := by
  simp only [csvStep]
  rw [if_pos h]
  rfl

/-- The run over a concatenation is a step on the run so far. -/
theorem csvRun_append (d0 : String) (bs : List (String × List PRecord))
    (b : String × List PRecord) :
    csvRun d0 (bs ++ [b]) = csvStep (csvRun d0 bs) b := by
  simp [csvRun, List.foldl_append]

/-- The current day after one more batch is that batch's date. -/
theorem currentDay_append (d0 : String) (bs : List (String × List PRecord))
    (b : String × List PRecord) :
    currentDay d0 (bs ++ [b]) = b.1 := by
  simp [currentDay, List.foldl_append]

/-- The date of the open log file is the date of the last processed
batch (the start date with no batches). -/
theorem csvRun_day (d0 : String) (bs : List (String × List PRecord)) :
    (csvRun d0 bs).day = currentDay d0 bs := by
  induction bs using List.reverseRecOn with
  | nil => rfl
  | append_singleton bs b _ =>
    rw [csvRun_append, currentDay_append]
    by_cases h : (csvRun d0 bs).day = b.1
    · rw [csvStep_no_rollover _ _ h]; exact h
    · rw [csvStep_rollover _ _ h]

/-- Appending a batch of the current date extends the epoch. -/
theorem epochBatches_append_same (d0 : String)
    (bs : List (String × List PRecord)) (b : String × List PRecord)
    (h : b.1 = currentDay d0 bs) :
    epochBatches d0 (bs ++ [b]) = epochBatches d0 bs ++ [b] := by
  unfold epochBatches
  rw [currentDay_append, List.reverse_append]
  simp only [List.reverse_cons, List.reverse_nil, List.nil_append,
    List.singleton_append]
  rw [List.takeWhile_cons, if_pos (by simp), List.reverse_cons, h]

/-- Appending a batch of a new date starts a fresh one-batch epoch. -/
theorem epochBatches_append_new (d0 : String)
    (bs : List (String × List PRecord)) (b : String × List PRecord)
    (h : b.1 ≠ currentDay d0 bs) :
    epochBatches d0 (bs ++ [b]) = [b] := by
  unfold epochBatches
  rw [currentDay_append, List.reverse_append]
  simp only [List.reverse_cons, List.reverse_nil, List.nil_append,
    List.singleton_append]
  rw [List.takeWhile_cons, if_pos (by simp)]
  have hnil : bs.reverse.takeWhile (fun x => x.1 == b.1) = [] := by
    rcases List.eq_nil_or_concat bs with rfl | ⟨L, c, rfl⟩
    · rfl
    · rw [List.concat_eq_append] at h ⊢
      rw [currentDay_append] at h
      rw [List.reverse_append]
      simp only [List.reverse_cons, List.reverse_nil, List.nil_append,
        List.singleton_append]
      rw [List.takeWhile_cons, if_neg]
      intro e
      have he : c.1 = b.1 := by simpa using e
      exact h he.symm
  rw [hnil, List.reverse_cons, List.reverse_nil, List.nil_append]

/-- Epoch rows over a concatenation, same date. -/
theorem epochRows_append_same (d0 : String)
    (bs : List (String × List PRecord)) (b : String × List PRecord)
    (h : b.1 = currentDay d0 bs) :
    epochRows d0 (bs ++ [b]) = epochRows d0 bs ++ csvRowsOfBatch b.2 := by
  unfold epochRows
  rw [epochBatches_append_same d0 bs b h]
  simp

/-- Epoch rows over a concatenation, new date. -/
theorem epochRows_append_new (d0 : String)
    (bs : List (String × List PRecord)) (b : String × List PRecord)
    (h : b.1 ≠ currentDay d0 bs) :
    epochRows d0 (bs ++ [b]) = csvRowsOfBatch b.2 := by
  unfold epochRows
  rw [epochBatches_append_new d0 bs b h]
  simp

/-- Counting a concatenation continues the count of the prefix. -/
theorem countsOf_append (xs ys : List (Int × PyVal × Int)) :
    countsOf (xs ++ ys)
      = ys.foldl (fun dc r => counterIncrement dc r.1) (countsOf xs) := by
  unfold countsOf
  rw [List.foldl_append]

/-- The in-memory counter always holds the counts of the rows written
since the last reset. -/
theorem csvRun_counter (d0 : String) (bs : List (String × List PRecord)) :
    (csvRun d0 bs).data_counter = countsOf (epochRows d0 bs) := by
  induction bs using List.reverseRecOn with
  | nil => rfl
  | append_singleton bs b ih =>
    rw [csvRun_append]
    by_cases h : b.1 = currentDay d0 bs
    · rw [csvStep_no_rollover _ _ (by rw [csvRun_day]; exact h.symm)]
      show (csvRowsOfBatch b.2).foldl _ (csvRun d0 bs).data_counter = _
      rw [ih, epochRows_append_same d0 bs b h, countsOf_append]
    · rw [csvStep_rollover _ _ (by rw [csvRun_day]; exact fun e => h e.symm)]
      show countsOf (csvRowsOfBatch b.2) = _
      rw [epochRows_append_new d0 bs b h]

/-- Every day-log file holds exactly the rows of the batches processed
under that date, in order. -/
theorem csvRun_dayLogs (d0 : String) (bs : List (String × List PRecord))
    (d : String) :
    (csvRun d0 bs).dayLogs d
      = (bs.filter (fun b => b.1 == d)).bind (fun b => csvRowsOfBatch b.2) := by
  induction bs using List.reverseRecOn with
  | nil => rfl
  | append_singleton bs b ih =>
    rw [csvRun_append, List.filter_append]
    by_cases hd : d = b.1
    · have hfb : [b].filter (fun x => x.1 == d) = [b] := by simp [hd]
      rw [hfb]
      by_cases h : (csvRun d0 bs).day = b.1
      · rw [csvStep_no_rollover _ _ h]
        show (if d = (csvRun d0 bs).day then _ ++ csvRowsOfBatch b.2 else _) = _
        rw [if_pos (hd.trans h.symm), ih]
        simp
      · rw [csvStep_rollover _ _ h]
        show (if d = b.1 then _ ++ csvRowsOfBatch b.2 else _) = _
        rw [if_pos hd, ih]
        simp
    · have hfb : [b].filter (fun x => x.1 == d) = [] := by
        simp only [List.filter, beq_eq_false_iff_ne]
        have : (b.1 == d) = false := by
          simp only [beq_eq_false_iff_ne]; exact fun e => hd e.symm
        simp [this]
      rw [hfb, List.append_nil]
      by_cases h : (csvRun d0 bs).day = b.1
      · rw [csvStep_no_rollover _ _ h]
        show (if d = (csvRun d0 bs).day then _ else (csvRun d0 bs).dayLogs d) = _
        rw [if_neg (fun e => hd (e.trans h)), ih]
      · rw [csvStep_rollover _ _ h]
        show (if d = b.1 then _ else (csvRun d0 bs).dayLogs d) = _
        rw [if_neg hd, ih]

/-- **C9.** Whenever the CSV log worker takes a batch and the current
local date `today` differs from the date of the open day-log, it appends
to the old day's counter file one `(id, count)` row per id in strictly
ascending id order, where `count` is exactly the number of rows written
for that id since that day's counters were last reset (and exactly the
ids with such rows appear); it resets the counter, opens the new day's
log and writes the batch there, leaving the old day's log unchanged;
consequently every day-log holds exactly the rows of the batches
processed under its own date; and on shutdown the current day's counter
file is flushed the same way. -/
theorem csv_day_rollover (d0 : String) (batches : List (String × List PRecord))
    (today : String) (items : List PRecord)
    (h : today ≠ currentDay d0 batches) :
    ((csvStep (csvRun d0 batches) (today, items)).counterFiles
          (currentDay d0 batches)
        = (csvRun d0 batches).counterFiles (currentDay d0 batches)
          ++ counterRows (countsOf (epochRows d0 batches))
      ∧ (counterRows (countsOf (epochRows d0 batches))).Pairwise
          (fun a b => a.1 < b.1)
      ∧ (∀ p ∈ counterRows (countsOf (epochRows d0 batches)),
          p.2 = ((epochRows d0 batches).map (fun r => r.1)).count p.1)
      ∧ (∀ n : Int, n ∈ (epochRows d0 batches).map (fun r => r.1)
          ↔ ∃ c, (n, c) ∈ counterRows (countsOf (epochRows d0 batches))))
    ∧ ((csvStep (csvRun d0 batches) (today, items)).day = today
      ∧ (csvStep (csvRun d0 batches) (today, items)).data_counter
          = countsOf (csvRowsOfBatch items)
      ∧ (csvStep (csvRun d0 batches) (today, items)).dayLogs today
          = (csvRun d0 batches).dayLogs today ++ csvRowsOfBatch items
      ∧ (csvStep (csvRun d0 batches) (today, items)).dayLogs
            (currentDay d0 batches)
          = (csvRun d0 batches).dayLogs (currentDay d0 batches))
    ∧ (∀ d : String, (csvRun d0 batches).dayLogs d
        = (batches.filter (fun b => b.1 == d)).bind
            (fun b => csvRowsOfBatch b.2))
    ∧ ((csvShutdown (csvRun d0 batches)).counterFiles (currentDay d0 batches)
        = (csvRun d0 batches).counterFiles (currentDay d0 batches)
          ++ counterRows (countsOf (epochRows d0 batches))) := by
  have hday : (csvRun d0 batches).day = currentDay d0 batches :=
    csvRun_day d0 batches
  have hroll : (csvRun d0 batches).day ≠ (today, items).1 := by
    rw [hday]; exact fun e => h e.symm
  have hstep := csvStep_rollover (csvRun d0 batches) (today, items) hroll
  have hctr := csvRun_counter d0 batches
  refine ⟨⟨?_, ?_, ?_, ?_⟩, ⟨?_, ?_, ?_, ?_⟩, ?_, ?_⟩
  · rw [hstep]
    dsimp only
    rw [if_pos hday.symm, hctr]
  · exact counterRows_sorted _ (countsOf_keys_nodup _)
  · intro p hp
    rw [((counterRows_mem _ p).mp hp).2, countsOf_get]
  · intro n
    constructor
    · intro hn
      exact ⟨ctrGet (countsOf (epochRows d0 batches)) n,
        (counterRows_mem _ _).mpr ⟨(countsOf_keys _ n).mpr hn, rfl⟩⟩
    · rintro ⟨c, hc⟩
      exact (countsOf_keys _ n).mp ((counterRows_mem _ _).mp hc).1
  · rw [hstep]
  · rw [hstep]
  · rw [hstep]
    dsimp only
    rw [if_pos rfl]
  · rw [hstep]
    dsimp only
    rw [if_neg (fun e => h e.symm)]
  · exact fun d => csvRun_dayLogs d0 batches d
  · simp only [csvShutdown]
    rw [if_pos hday.symm, hctr]

/-- A first concrete record for the CSV rollover witness. -/
def csvRecA : PRecord :=
  { name := "a", path := "/a", v := PyVal.pint 1, ts := 10, unit := "u",
    datatype := "long", id := some 2, secret := false }

/-- A second concrete record for the CSV rollover witness. -/
def csvRecB : PRecord :=
  { name := "b", path := "/b", v := PyVal.pint 2, ts := 11, unit := "u",
    datatype := "long", id := some 1, secret := false }

/-- Witness for `csv_day_rollover`: two batches on 2018-01-01 (ids 2, 2, 1)
followed by a batch dated 2018-01-02. -/
theorem csv_day_rollover_witness :
    ((csvStep (csvRun "2018-01-01"
            [("2018-01-01", [csvRecA]), ("2018-01-01", [csvRecA, csvRecB])])
          ("2018-01-02", [csvRecB])).counterFiles
          (currentDay "2018-01-01"
            [("2018-01-01", [csvRecA]), ("2018-01-01", [csvRecA, csvRecB])])
        = (csvRun "2018-01-01"
            [("2018-01-01", [csvRecA]), ("2018-01-01", [csvRecA, csvRecB])]).counterFiles
            (currentDay "2018-01-01"
              [("2018-01-01", [csvRecA]), ("2018-01-01", [csvRecA, csvRecB])])
          ++ counterRows (countsOf (epochRows "2018-01-01"
              [("2018-01-01", [csvRecA]), ("2018-01-01", [csvRecA, csvRecB])]))
      ∧ (counterRows (countsOf (epochRows "2018-01-01"
            [("2018-01-01", [csvRecA]), ("2018-01-01", [csvRecA, csvRecB])]))).Pairwise
          (fun a b => a.1 < b.1)
      ∧ (∀ p ∈ counterRows (countsOf (epochRows "2018-01-01"
            [("2018-01-01", [csvRecA]), ("2018-01-01", [csvRecA, csvRecB])])),
          p.2 = ((epochRows "2018-01-01"
              [("2018-01-01", [csvRecA]), ("2018-01-01", [csvRecA, csvRecB])]).map
                (fun r => r.1)).count p.1)
      ∧ (∀ n : Int, n ∈ (epochRows "2018-01-01"
            [("2018-01-01", [csvRecA]), ("2018-01-01", [csvRecA, csvRecB])]).map
              (fun r => r.1)
          ↔ ∃ c, (n, c) ∈ counterRows (countsOf (epochRows "2018-01-01"
              [("2018-01-01", [csvRecA]), ("2018-01-01", [csvRecA, csvRecB])]))))
    ∧ ((csvStep (csvRun "2018-01-01"
            [("2018-01-01", [csvRecA]), ("2018-01-01", [csvRecA, csvRecB])])
          ("2018-01-02", [csvRecB])).day = "2018-01-02"
      ∧ (csvStep (csvRun "2018-01-01"
            [("2018-01-01", [csvRecA]), ("2018-01-01", [csvRecA, csvRecB])])
          ("2018-01-02", [csvRecB])).data_counter
          = countsOf (csvRowsOfBatch [csvRecB])
      ∧ (csvStep (csvRun "2018-01-01"
            [("2018-01-01", [csvRecA]), ("2018-01-01", [csvRecA, csvRecB])])
          ("2018-01-02", [csvRecB])).dayLogs "2018-01-02"
          = (csvRun "2018-01-01"
              [("2018-01-01", [csvRecA]), ("2018-01-01", [csvRecA, csvRecB])]).dayLogs
              "2018-01-02" ++ csvRowsOfBatch [csvRecB]
      ∧ (csvStep (csvRun "2018-01-01"
            [("2018-01-01", [csvRecA]), ("2018-01-01", [csvRecA, csvRecB])])
          ("2018-01-02", [csvRecB])).dayLogs
            (currentDay "2018-01-01"
              [("2018-01-01", [csvRecA]), ("2018-01-01", [csvRecA, csvRecB])])
          = (csvRun "2018-01-01"
              [("2018-01-01", [csvRecA]), ("2018-01-01", [csvRecA, csvRecB])]).dayLogs
              (currentDay "2018-01-01"
                [("2018-01-01", [csvRecA]), ("2018-01-01", [csvRecA, csvRecB])]))
    ∧ (∀ d : String, (csvRun "2018-01-01"
          [("2018-01-01", [csvRecA]), ("2018-01-01", [csvRecA, csvRecB])]).dayLogs d
        = ([("2018-01-01", [csvRecA]), ("2018-01-01", [csvRecA, csvRecB])].filter
            (fun b => b.1 == d)).bind (fun b => csvRowsOfBatch b.2))
    ∧ ((csvShutdown (csvRun "2018-01-01"
          [("2018-01-01", [csvRecA]), ("2018-01-01", [csvRecA, csvRecB])])).counterFiles
          (currentDay "2018-01-01"
            [("2018-01-01", [csvRecA]), ("2018-01-01", [csvRecA, csvRecB])])
        = (csvRun "2018-01-01"
            [("2018-01-01", [csvRecA]), ("2018-01-01", [csvRecA, csvRecB])]).counterFiles
            (currentDay "2018-01-01"
              [("2018-01-01", [csvRecA]), ("2018-01-01", [csvRecA, csvRecB])])
          ++ counterRows (countsOf (epochRows "2018-01-01"
              [("2018-01-01", [csvRecA]), ("2018-01-01", [csvRecA, csvRecB])]))) :=
  csv_day_rollover "2018-01-01"
    [("2018-01-01", [csvRecA]), ("2018-01-01", [csvRecA, csvRecB])]
    "2018-01-02" [csvRecB] (by decide)

end Procem
